import Mathlib

/-!
The file `binaural.c`: the streaming spatializer and the geometry computation

A shallow embedding of `src/binaural.c`.

* `audio_callback` is the SDL pull callback.  Its globals (`audio_pos`, `audio_len`,
  `delay`, `balance`) are the fields of `AudioState`; the bytes `audio_pos` points into are
  the flat byte memory `mem`.  The output `stream` is viewed as the `int16_t` array the code
  casts it to: a map from `int16_t` index to the stored value.
* `geometry` is the body of the `while` loop of `main` that recomputes `delay` and `balance`.

Conventions.
* Signed `int` arithmetic is done in `Int`; signed overflow is undefined behaviour in C and is
  not part of the model.  The conversions between `int` and `uint32_t` that the C language
  defines (in `len > audio_len`, in the assignment to `len`, in `audio_len -= len`) are explicit:
  `toU32`, `toI32`.
* `float` arithmetic is done exactly, in a linearly ordered field `α` with a floor function
  (`ℚ` for running the callback, `ℝ` for the geometry).  A `float` to integer conversion is
  `truncToInt`, truncation toward zero.
-/

namespace Binaural

/-! ## Machine integers -/

/-- Conversion of an integer value to `uint32_t` (reduction modulo `2^32`). -/
def toU32 (x : Int) : Int := x % 2 ^ 32

/-- Conversion of an integer value to `int` (two's complement, 32 bits). -/
def toI32 (x : Int) : Int :=
  if x % 2 ^ 32 < 2 ^ 31 then x % 2 ^ 32 else x % 2 ^ 32 - 2 ^ 32

/-- Conversion of an integer value to `int16_t` (two's complement, 16 bits). -/
def toI16 (x : Int) : Int :=
  if x % 2 ^ 16 < 2 ^ 15 then x % 2 ^ 16 else x % 2 ^ 16 - 2 ^ 16

/-- The values of type `int`. -/
def int_range (x : Int) : Prop := -2 ^ 31 ≤ x ∧ x < 2 ^ 31

/-- The values of type `uint32_t`. -/
def uint32_range (x : Int) : Prop := 0 ≤ x ∧ x < 2 ^ 32

instance (x : Int) : Decidable (int_range x) :=
  inferInstanceAs (Decidable (-2 ^ 31 ≤ x ∧ x < 2 ^ 31))

instance (x : Int) : Decidable (uint32_range x) :=
  inferInstanceAs (Decidable (0 ≤ x ∧ x < 2 ^ 32))

/-- The values of type `int16_t`. -/
def int16_range (x : Int) : Prop := -32768 ≤ x ∧ x ≤ 32767

instance (x : Int) : Decidable (int16_range x) :=
  inferInstanceAs (Decidable (-32768 ≤ x ∧ x ≤ 32767))

section Callback

variable {α : Type} [LinearOrderedField α] [FloorRing α]

/-- Conversion of a `float` to an integer type: the fractional part is discarded
(truncation toward zero). -/
def truncToInt (x : α) : Int := if 0 ≤ x then ⌊x⌋ else ⌈x⌉

/-- The file-scope variables of `binaural.c` the callback works on, together with the byte
memory `audio_pos` points into (`mem a` is the byte at address `a`, taken modulo 256). -/
structure AudioState (α : Type) where
  /-- byte memory holding the decoded wav data -/
  mem : Int → Int
  /-- `static uint8_t *audio_pos`: byte data remaining to be played -/
  audio_pos : Int
  /-- `static uint32_t audio_len`: bytes left in `audio_pos` -/
  audio_len : Int
  /-- `static int delay` -/
  delay : Int
  /-- `static float balance` -/
  balance : α

/-- The little-endian `int16_t` stored in the two bytes at address `a`. -/
def read_i16 (mem : Int → Int) (a : Int) : Int :=
  toI16 (mem a % 256 + 256 * (mem (a + 1) % 256))

/-- The expression `((int16_t*)audio_pos)[k]`. -/
def audio_sample (s : AudioState α) (k : Int) : Int :=
  read_i16 s.mem (s.audio_pos + 2 * k)

/-- The variable `merged` of loop iteration `i` (lines 126-130):
`0` if `i*4 > audio_len`, else the sum of the two halved samples of source frame `i`
(`/` on `int` truncates toward zero).  The loop index is non-negative, so the conversion of
`i*4` to `uint32_t` in the comparison leaves it unchanged; the integer sum is exactly
representable as a `float`. -/
def merged (s : AudioState α) (i : Int) : Int :=
  if i * 4 > s.audio_len then 0
  else (audio_sample s (i * 2)).tdiv 2 + (audio_sample s (i * 2 + 1)).tdiv 2

/-- The pair `(lsamp, rsamp)` computed from `merged` and `balance` (lines 131-138). -/
def balance_step (balance : α) (merged : α) : α × α :=
  if balance ≤ 1 then (merged * balance, merged)
  else (merged, merged / balance)

/-- The variable `lsamp` of loop iteration `i`. -/
def lsamp (s : AudioState α) (i : Int) : α := (balance_step s.balance (merged s i : α)).1

/-- The variable `rsamp` of loop iteration `i`. -/
def rsamp (s : AudioState α) (i : Int) : α := (balance_step s.balance (merged s i : α)).2

/-- The stores of loop iteration `i` (lines 139-151), in program order: each is a pair of the
`int16_t` index into `stream` and the value stored there, the `float` sample converted to an
integer. -/
def body_stores (s : AudioState α) (samples : Int) (i : Int) : List (Int × Int) :=
  if s.delay ≥ 0 then
    let ri := i - s.delay
    (if i < samples then [(i * 2, truncToInt (lsamp s i))] else []) ++
    (if ri ≥ 0 then [(ri * 2 + 1, truncToInt (rsamp s i))] else [])
  else
    let li := i + s.delay
    (if i < samples then [(i * 2 + 1, truncToInt (rsamp s i))] else []) ++
    (if li ≥ 0 then [(li * 2, truncToInt (lsamp s i))] else [])

/-- The stores of the whole loop `for(int i = 0; i < samples + abs(delay); i++)`,
in program order. -/
def loop_stores (s : AudioState α) (samples : Int) : List (Int × Int) :=
  (List.range (samples + |s.delay|).toNat).flatMap (fun i => body_stores s samples (i : Int))

/-- One store `((int16_t*)stream)[w.1] = w.2`. -/
def store (stream : Int → Int) (w : Int × Int) : Int → Int :=
  fun k => if k = w.1 then w.2 else stream k

/-- The value of `len` after line 121, `len = ( len > audio_len ? audio_len : len )`:
the comparison and the conditional are done in `uint32_t`, the result is converted to `int`. -/
def effective_len (s : AudioState α) (len : Int) : Int :=
  toI32 (if toU32 len > s.audio_len then s.audio_len else toU32 len)

/-- The function `audio_callback` (lines 116-157): the state and the output stream after the
call with requested length `len`. -/
def audio_callback (s : AudioState α) (stream : Int → Int) (len : Int) :
    AudioState α × (Int → Int) :=
  if s.audio_len ≤ 0 then (s, stream)
  else
    let len := effective_len s len
    let samples := len.tdiv 4
    let stream := (loop_stores s samples).foldl store stream
    ({ s with audio_pos := s.audio_pos + len, audio_len := toU32 (s.audio_len - len) }, stream)

/-- The stores one call of `audio_callback` makes into `stream`, in program order: none when
`audio_len <= 0`, else those of the loop with `samples = len / 4`. -/
def callback_stores (s : AudioState α) (len : Int) : List (Int × Int) :=
  if s.audio_len ≤ 0 then []
  else loop_stores s ((effective_len s len).tdiv 4)

/-- The number of distinct output frames that receive a store (of their left or of their
right sample) in one call; the frame of the `int16_t` index `k` is `k / 2`. -/
def frames_written (s : AudioState α) (len : Int) : Nat :=
  ((callback_stores s len).map (fun w => w.1 / 2)).dedup.length

/-- The addresses of the source bytes that loop iteration `i` reads to compute `merged`
(lines 127-130): none when `i*4 > audio_len`, else the two bytes of
`((int16_t*)audio_pos)[i*2]` and the two bytes of `((int16_t*)audio_pos)[i*2 + 1]`. -/
def merged_reads (s : AudioState α) (i : Int) : List Int :=
  if i * 4 > s.audio_len then []
  else [s.audio_pos + 2 * (i * 2), s.audio_pos + 2 * (i * 2) + 1,
        s.audio_pos + 2 * (i * 2 + 1), s.audio_pos + 2 * (i * 2 + 1) + 1]

/-- The address `a` is one of the `audio_len` bytes left at `audio_pos`. -/
def in_source (s : AudioState α) (a : Int) : Prop :=
  s.audio_pos ≤ a ∧ a < s.audio_pos + s.audio_len

instance (s : AudioState α) (a : Int) : Decidable (in_source s a) :=
  inferInstanceAs (Decidable (s.audio_pos ≤ a ∧ a < s.audio_pos + s.audio_len))

/-! ### Sequences of calls -/

/-- One invocation of the callback by the audio device: the requested length and the output
buffer it passes, and the values of `delay` and `balance` that `main` has stored by then. -/
structure Call (α : Type) where
  /-- requested length -/
  len : Int
  /-- output buffer handed to the callback -/
  stream : Int → Int
  /-- value of the global `delay` at the call -/
  delay : Int
  /-- value of the global `balance` at the call -/
  balance : α

/-- What one invocation did: the state before and after, and the output buffer after. -/
structure CallRecord (α : Type) where
  /-- the invocation -/
  call : Call α
  /-- state when the callback is entered -/
  before : AudioState α
  /-- state when the callback returns -/
  after : AudioState α
  /-- output buffer when the callback returns -/
  out : Int → Int

/-- The records of a finite sequence of invocations, started in state `s`. -/
def run_calls (s : AudioState α) : List (Call α) → List (CallRecord α)
  | [] => []
  | c :: cs =>
    let s0 : AudioState α := { s with delay := c.delay, balance := c.balance }
    let r := audio_callback s0 c.stream c.len
    { call := c, before := s0, after := r.1, out := r.2 } :: run_calls r.1 cs

end Callback

/-! ## The geometry computation of `main` -/

section GeometryDefs

variable {α : Type} [LinearOrderedField α] [FloorRing α]

/-- The local variables of one pass of the `while` loop of `main` (lines 81-102). -/
structure Geometry (α : Type) where
  /-- angle in radians -/
  θ : α
  /-- forward offset of the source -/
  y : α
  /-- lateral offset of the source -/
  x : α
  /-- lateral offset from the right ear -/
  x_r : α
  /-- lateral offset from the left ear -/
  x_l : α
  /-- distance from the right ear -/
  er : α
  /-- distance from the left ear -/
  el : α
  /-- the value stored in the global `delay` -/
  delay : Int
  /-- the value stored in the global `balance` -/
  balance : α

/-- Lines 81-102 of `main`, for distance `l`, angle `t` in degrees and sample rate `freq`.
The library functions `cosf`, `sinf`, `sqrtf` and the constant `M_PI` are parameters; `fabsf`
is the absolute value; the conversion of the `float` product to the `int delay` truncates. -/
def geometry (cosf sinf sqrtf : α → α) (M_PI : α) (freq : Int) (l t : α) : Geometry α :=
  let v : α := 320
  let d : α := 20 / 100
  let θ : α := t / 180 * M_PI
  let y : α := l * cosf θ
  let x : α := l * sinf θ
  let x_r : α := |x - d / 2|
  let x_l : α := |x + d / 2|
  let er : α := sqrtf (x_r * x_r + y * y)
  let el : α := sqrtf (x_l * x_l + y * y)
  { θ := θ, y := y, x := x, x_r := x_r, x_l := x_l, er := er, el := el,
    delay := truncToInt (((el - er) / v) * (freq : α)),
    balance := er / el }

end GeometryDefs

/-! ## Example data -/

/-- The bytes of a small wav buffer: the five frames `(100,100)`, `(-100,-100)`, `(200,200)`,
`(0,0)`, `(7,9)` as little-endian `int16_t` pairs. -/
def example_wav : List Int :=
  [100, 0, 100, 0, 156, 255, 156, 255, 200, 0, 200, 0, 0, 0, 0, 0, 7, 0, 9, 0]

/-- A byte memory that holds `example_wav` from address `0` on and zero bytes elsewhere. -/
def example_mem (a : Int) : Int := if a < 0 then 0 else example_wav.getD a.toNat 0

/-- A state over `example_mem` with `audio_pos` at address `0`. -/
def example_state (delay : Int) (balance : ℚ) (audio_len : Int) : AudioState ℚ :=
  { mem := example_mem, audio_pos := 0, audio_len := audio_len, delay := delay,
    balance := balance }

/-- An output buffer of silence. -/
def silence : Int → Int := fun _ => 0

/-- Three invocations of 16 bytes each, with different delays and balances. -/
def example_calls : List (Call ℚ) :=
  [{ len := 16, stream := silence, delay := 1, balance := 1 },
   { len := 16, stream := silence, delay := -2, balance := 1 / 2 },
   { len := 16, stream := silence, delay := 0, balance := 3 }]

/-! ## Lemmas on the machine integers -/

theorem toU32_of_range {x : Int} (h0 : 0 ≤ x) (h1 : x < 2 ^ 32) : toU32 x = x := by
  unfold toU32; omega

theorem toI32_of_range {x : Int} (h0 : 0 ≤ x) (h1 : x < 2 ^ 31) : toI32 x = x := by
  unfold toI32; omega

section StateLemmas

variable {α : Type}

/-- For a requested length that is a non-negative `int`, line 121 computes the minimum of the
requested length and the remaining length. -/
theorem effective_len_eq_min (s : AudioState α) (len : Int) (hR : 0 ≤ s.audio_len)
    (hn : 0 ≤ len) (hlen : int_range len) : effective_len s len = min len s.audio_len := by
  obtain ⟨_, h2⟩ := hlen
  have h2 : len < 2 ^ 31 := h2
  unfold effective_len
  rw [toU32_of_range hn (by omega)]
  by_cases h : len > s.audio_len
  · rw [if_pos h, min_eq_right (le_of_lt h)]
    exact toI32_of_range hR (by omega)
  · rw [if_neg h, min_eq_left (not_lt.mp h)]
    exact toI32_of_range hn h2

/-- For a requested length that is a non-negative integer, line 121 never raises `len`. -/
theorem effective_len_le (s : AudioState α) (len : Int) (hR : 0 < s.audio_len)
    (hn : 0 ≤ len) : effective_len s len ≤ len := by
  unfold effective_len toU32 toI32
  split_ifs <;> omega

end StateLemmas

/-- After a sequence of stores, an index none of them targets holds its old value. -/
theorem foldl_store_of_not_mem (ws : List (Int × Int)) (stream : Int → Int) (k : Int)
    (h : ∀ w ∈ ws, w.1 ≠ k) : (ws.foldl store stream) k = stream k := by
  induction ws generalizing stream with
  | nil => rfl
  | cons w ws ih =>
    rw [List.foldl_cons, ih _ (fun w' hw' => h w' (List.mem_cons_of_mem _ hw'))]
    have hk : w.1 ≠ k := h w (List.mem_cons_self _ _)
    simp [store, Ne.symm hk]

/-- After a sequence of stores, an index that is targeted, and only with the value `v`,
holds `v`. -/
theorem foldl_store_of_mem (ws : List (Int × Int)) (stream : Int → Int) (k v : Int)
    (hex : ∃ w ∈ ws, w.1 = k) (hval : ∀ w ∈ ws, w.1 = k → w.2 = v) :
    (ws.foldl store stream) k = v := by
  induction ws generalizing stream with
  | nil => simp at hex
  | cons w ws ih =>
    rw [List.foldl_cons]
    by_cases hlater : ∃ w' ∈ ws, w'.1 = k
    · exact ih _ hlater (fun w' hw' => hval w' (List.mem_cons_of_mem _ hw'))
    · have hnone : ∀ w' ∈ ws, w'.1 ≠ k := fun w' hw' hk => hlater ⟨w', hw', hk⟩
      rw [foldl_store_of_not_mem ws _ k hnone]
      obtain ⟨w0, hw0, hk0⟩ := hex
      have hw : w.1 = k := by
        rcases List.mem_cons.mp hw0 with h | h
        · rw [← h]; exact hk0
        · exact absurd hk0 (hnone w0 h)
      simp [store, hw, hval w (List.mem_cons_self _ _) hw]

/-- A duplicate-free list of integers of `[0, S)` has at most `S` entries. -/
theorem nodup_length_le (L : List Int) (S : Int) (hnd : L.Nodup)
    (h : ∀ f ∈ L, 0 ≤ f ∧ f < S) : L.length ≤ S.toNat := by
  have hsub : L ⊆ (List.range S.toNat).map (fun n : Nat => (n : Int)) := by
    intro f hf
    obtain ⟨h0, h1⟩ := h f hf
    rw [List.mem_map]
    exact ⟨f.toNat, by rw [List.mem_range]; omega, by omega⟩
  have := (List.subperm_of_subset hnd hsub).length_le
  simpa using this

section CallbackLemmas

variable {α : Type} [LinearOrderedField α] [FloorRing α]

/-- The output stream of a call is the input stream updated by the stores of the call. -/
theorem audio_callback_stream (s : AudioState α) (stream : Int → Int) (len : Int) :
    (audio_callback s stream len).2 = (callback_stores s len).foldl store stream := by
  unfold audio_callback callback_stores
  by_cases h : s.audio_len ≤ 0 <;> simp [h]

/-- With data remaining and a requested length that is a non-negative `int`, `samples` is
`min(len, audio_len) / 4`. -/
theorem callback_stores_eq (s : AudioState α) (len : Int) (hR : 0 < s.audio_len)
    (hn : 0 ≤ len) (hlen : int_range len) :
    callback_stores s len = loop_stores s (min len s.audio_len / 4) := by
  unfold callback_stores
  rw [if_neg (not_le.mpr hR), effective_len_eq_min s len (le_of_lt hR) hn hlen,
    Int.tdiv_eq_ediv (le_min hn (le_of_lt hR)) (by norm_num)]

/-- Converting the `float` value of an integer back to an integer gives the integer. -/
theorem truncToInt_intCast (m : Int) : truncToInt (m : α) = m := by
  unfold truncToInt
  split_ifs <;> simp

/-- With `balance = 1` the left sample is the merged value. -/
theorem lsamp_balance_one (s : AudioState α) (hb : s.balance = 1) (i : Int) :
    truncToInt (lsamp s i) = merged s i := by
  unfold lsamp balance_step
  rw [hb, if_pos le_rfl]
  simp only [mul_one]
  exact truncToInt_intCast _

/-- With `balance = 1` the right sample is the merged value. -/
theorem rsamp_balance_one (s : AudioState α) (hb : s.balance = 1) (i : Int) :
    truncToInt (rsamp s i) = merged s i := by
  unfold rsamp balance_step
  rw [hb, if_pos le_rfl]
  exact truncToInt_intCast _

/-- With nothing remaining the callback returns at once. -/
theorem audio_callback_of_empty (s : AudioState α) (stream : Int → Int) (len : Int)
    (h : s.audio_len = 0) : audio_callback s stream len = (s, stream) := by
  unfold audio_callback
  rw [if_pos (le_of_eq h)]

/-- The cursor and the remaining length after a call with data remaining and a requested
length that is a non-negative `int`. -/
theorem audio_callback_state (s : AudioState α) (stream : Int → Int) (len : Int)
    (hR : 0 < s.audio_len) (hR32 : uint32_range s.audio_len) (hn : 0 ≤ len)
    (hlen : int_range len) :
    (audio_callback s stream len).1.audio_pos = s.audio_pos + min len s.audio_len ∧
    (audio_callback s stream len).1.audio_len = s.audio_len - min len s.audio_len := by
  unfold audio_callback
  rw [if_neg (not_le.mpr hR)]
  simp only
  rw [effective_len_eq_min s len (le_of_lt hR) hn hlen]
  refine ⟨rfl, toU32_of_range ?_ ?_⟩
  · have := min_le_right len s.audio_len
    omega
  · have := le_min hn (le_of_lt hR)
    have := hR32.2
    omega

/-- One call with a requested length that is a non-negative `int`: the remaining length stays
a `uint32_t`, does not grow, and drops by what the cursor advances. -/
theorem audio_callback_step (s : AudioState α) (stream : Int → Int) (len : Int)
    (hR32 : uint32_range s.audio_len) (hn : 0 ≤ len) (hlen : int_range len) :
    uint32_range (audio_callback s stream len).1.audio_len ∧
    (audio_callback s stream len).1.audio_len ≤ s.audio_len ∧
    s.audio_len - (audio_callback s stream len).1.audio_len =
      (audio_callback s stream len).1.audio_pos - s.audio_pos := by
  rcases eq_or_lt_of_le hR32.1 with h0 | hpos
  · rw [audio_callback_of_empty s stream len h0.symm]
    exact ⟨hR32, le_rfl, by simp⟩
  · obtain ⟨hp, hl⟩ := audio_callback_state s stream len hpos hR32 hn hlen
    have h1 := min_le_right len s.audio_len
    have h2 := le_min hn (le_of_lt hpos)
    have h3 := hR32.2
    rw [hp, hl]
    refine ⟨⟨by omega, by omega⟩, by omega, by ring⟩

/-- Along a sequence of calls with non-negative requested lengths, the remaining length at
entry to and at return from every call is a `uint32_t` that is at most the initial one. -/
theorem run_calls_bound (calls : List (Call α)) (s : AudioState α)
    (hR32 : uint32_range s.audio_len)
    (hcalls : ∀ c ∈ calls, 0 ≤ c.len ∧ int_range c.len) :
    ∀ r ∈ run_calls s calls,
      uint32_range r.before.audio_len ∧ r.before.audio_len ≤ s.audio_len ∧
      uint32_range r.after.audio_len ∧ r.after.audio_len ≤ r.before.audio_len := by
  induction calls generalizing s with
  | nil => intro r hr; simp [run_calls] at hr
  | cons c cs ih =>
    intro r hr
    obtain ⟨hn, hlen⟩ := hcalls c (List.mem_cons_self _ _)
    have hstep := audio_callback_step { s with delay := c.delay, balance := c.balance }
      c.stream c.len hR32 hn hlen
    simp only [run_calls, List.mem_cons] at hr
    rcases hr with rfl | hr
    · exact ⟨hR32, le_rfl, hstep.1, hstep.2.1⟩
    · obtain ⟨h1, h2, h3, h4⟩ := ih _ hstep.1
        (fun c' hc' => hcalls c' (List.mem_cons_of_mem _ hc')) r hr
      exact ⟨h1, le_trans h2 hstep.2.1, h3, h4⟩

/-- The stores of the loop are the stores of its iterations `0 ≤ i < samples + abs(delay)`. -/
theorem mem_loop_stores (s : AudioState α) (samples : Int) (w : Int × Int) :
    w ∈ loop_stores s samples ↔
      ∃ i : Int, 0 ≤ i ∧ i < samples + |s.delay| ∧ w ∈ body_stores s samples i := by
  unfold loop_stores
  rw [List.mem_flatMap]
  constructor
  · rintro ⟨n, hn, hw⟩
    rw [List.mem_range] at hn
    exact ⟨(n : Int), by omega, by omega, hw⟩
  · rintro ⟨i, h0, h1, hw⟩
    refine ⟨i.toNat, ?_, ?_⟩
    · rw [List.mem_range]; omega
    · rwa [Int.toNat_of_nonneg h0]

/-- The stores of one iteration when `delay >= 0`. -/
theorem mem_body_stores_nonneg (s : AudioState α) (samples i : Int) (w : Int × Int)
    (hd : 0 ≤ s.delay) :
    w ∈ body_stores s samples i ↔
      (i < samples ∧ w = (i * 2, truncToInt (lsamp s i))) ∨
      (0 ≤ i - s.delay ∧ w = ((i - s.delay) * 2 + 1, truncToInt (rsamp s i))) := by
  unfold body_stores
  simp only [ge_iff_le, hd, if_true, List.mem_append]
  by_cases h1 : i < samples <;> by_cases h2 : 0 ≤ i - s.delay <;> simp [h1, h2]

/-- The stores of one iteration when `delay < 0`. -/
theorem mem_body_stores_neg (s : AudioState α) (samples i : Int) (w : Int × Int)
    (hd : s.delay < 0) :
    w ∈ body_stores s samples i ↔
      (i < samples ∧ w = (i * 2 + 1, truncToInt (rsamp s i))) ∨
      (0 ≤ i + s.delay ∧ w = ((i + s.delay) * 2, truncToInt (lsamp s i))) := by
  unfold body_stores
  simp only [ge_iff_le, not_le.mpr hd, if_false, List.mem_append]
  by_cases h1 : i < samples <;> by_cases h2 : 0 ≤ i + s.delay <;> simp [h1, h2]

/-- Left store of iteration `j < samples` when `delay >= 0`. -/
theorem left_mem_loop_stores_nonneg (s : AudioState α) (samples j : Int) (hd : 0 ≤ s.delay)
    (hj0 : 0 ≤ j) (hj : j < samples) :
    (j * 2, truncToInt (lsamp s j)) ∈ loop_stores s samples := by
  rw [mem_loop_stores]
  refine ⟨j, hj0, ?_, ?_⟩
  · have := abs_nonneg s.delay
    omega
  · rw [mem_body_stores_nonneg s _ j _ hd]
    exact Or.inl ⟨hj, rfl⟩

/-- Right store of iteration `j + delay` when `delay >= 0`: it lands at frame `j`. -/
theorem right_mem_loop_stores_nonneg (s : AudioState α) (samples j : Int) (hd : 0 ≤ s.delay)
    (hj0 : 0 ≤ j) (hj : j < samples) :
    (j * 2 + 1, truncToInt (rsamp s (j + s.delay))) ∈ loop_stores s samples := by
  rw [mem_loop_stores]
  refine ⟨j + s.delay, by omega, ?_, ?_⟩
  · rw [abs_of_nonneg hd]; omega
  · rw [mem_body_stores_nonneg s _ _ _ hd]
    refine Or.inr ⟨by omega, ?_⟩
    rw [add_sub_cancel_right]

/-- Right store of iteration `j < samples` when `delay < 0`. -/
theorem right_mem_loop_stores_neg (s : AudioState α) (samples j : Int) (hd : s.delay < 0)
    (hj0 : 0 ≤ j) (hj : j < samples) :
    (j * 2 + 1, truncToInt (rsamp s j)) ∈ loop_stores s samples := by
  rw [mem_loop_stores]
  refine ⟨j, hj0, ?_, ?_⟩
  · have := abs_nonneg s.delay
    omega
  · rw [mem_body_stores_neg s _ j _ hd]
    exact Or.inl ⟨hj, rfl⟩

/-- Left store of iteration `j + |delay|` when `delay < 0`: it lands at frame `j`. -/
theorem left_mem_loop_stores_neg (s : AudioState α) (samples j : Int) (hd : s.delay < 0)
    (hj0 : 0 ≤ j) (hj : j < samples) :
    (j * 2, truncToInt (lsamp s (j + |s.delay|))) ∈ loop_stores s samples := by
  rw [mem_loop_stores, abs_of_neg hd]
  refine ⟨j + -s.delay, by omega, by omega, ?_⟩
  rw [mem_body_stores_neg s _ _ _ hd]
  refine Or.inr ⟨by omega, ?_⟩
  rw [neg_add_cancel_right]

/-- When `delay >= 0`, the loop leaves in the left sample of frame `j < samples` the
left-scaled merged value of source frame `j`. -/
theorem loop_left_nonneg (s : AudioState α) (stream : Int → Int) (samples j : Int)
    (hd : 0 ≤ s.delay) (hj0 : 0 ≤ j) (hj : j < samples) :
    ((loop_stores s samples).foldl store stream) (j * 2) = truncToInt (lsamp s j) := by
  refine foldl_store_of_mem _ _ _ _
    ⟨_, left_mem_loop_stores_nonneg s samples j hd hj0 hj, rfl⟩ ?_
  intro w hw hk
  rw [mem_loop_stores] at hw
  obtain ⟨i, _, _, hw⟩ := hw
  rw [mem_body_stores_nonneg s _ i _ hd] at hw
  rcases hw with ⟨_, rfl⟩ | ⟨_, rfl⟩
  · have hij : i = j := by
      have : i * 2 = j * 2 := hk
      omega
    rw [hij]
  · exfalso
    have : (i - s.delay) * 2 + 1 = j * 2 := hk
    omega

/-- When `delay >= 0`, the loop leaves in the right sample of frame `j < samples` the
right-scaled merged value of source frame `j + delay`. -/
theorem loop_right_nonneg (s : AudioState α) (stream : Int → Int) (samples j : Int)
    (hd : 0 ≤ s.delay) (hj0 : 0 ≤ j) (hj : j < samples) :
    ((loop_stores s samples).foldl store stream) (j * 2 + 1) =
      truncToInt (rsamp s (j + s.delay)) := by
  refine foldl_store_of_mem _ _ _ _
    ⟨_, right_mem_loop_stores_nonneg s samples j hd hj0 hj, rfl⟩ ?_
  intro w hw hk
  rw [mem_loop_stores] at hw
  obtain ⟨i, _, _, hw⟩ := hw
  rw [mem_body_stores_nonneg s _ i _ hd] at hw
  rcases hw with ⟨_, rfl⟩ | ⟨_, rfl⟩
  · exfalso
    have : i * 2 = j * 2 + 1 := hk
    omega
  · have hij : i = j + s.delay := by
      have : (i - s.delay) * 2 + 1 = j * 2 + 1 := hk
      omega
    rw [hij]

/-- When `delay < 0`, the loop leaves in the right sample of frame `j < samples` the
right-scaled merged value of source frame `j`. -/
theorem loop_right_neg (s : AudioState α) (stream : Int → Int) (samples j : Int)
    (hd : s.delay < 0) (hj0 : 0 ≤ j) (hj : j < samples) :
    ((loop_stores s samples).foldl store stream) (j * 2 + 1) = truncToInt (rsamp s j) := by
  refine foldl_store_of_mem _ _ _ _
    ⟨_, right_mem_loop_stores_neg s samples j hd hj0 hj, rfl⟩ ?_
  intro w hw hk
  rw [mem_loop_stores] at hw
  obtain ⟨i, _, _, hw⟩ := hw
  rw [mem_body_stores_neg s _ i _ hd] at hw
  rcases hw with ⟨_, rfl⟩ | ⟨_, rfl⟩
  · have hij : i = j := by
      have : i * 2 + 1 = j * 2 + 1 := hk
      omega
    rw [hij]
  · exfalso
    have : (i + s.delay) * 2 = j * 2 + 1 := hk
    omega

/-- When `delay < 0`, the loop leaves in the left sample of frame `j < samples` the
left-scaled merged value of source frame `j + |delay|`. -/
theorem loop_left_neg (s : AudioState α) (stream : Int → Int) (samples j : Int)
    (hd : s.delay < 0) (hj0 : 0 ≤ j) (hj : j < samples) :
    ((loop_stores s samples).foldl store stream) (j * 2) =
      truncToInt (lsamp s (j + |s.delay|)) := by
  refine foldl_store_of_mem _ _ _ _
    ⟨_, left_mem_loop_stores_neg s samples j hd hj0 hj, rfl⟩ ?_
  intro w hw hk
  rw [mem_loop_stores] at hw
  obtain ⟨i, _, _, hw⟩ := hw
  rw [mem_body_stores_neg s _ i _ hd] at hw
  rcases hw with ⟨_, rfl⟩ | ⟨_, rfl⟩
  · exfalso
    have : i * 2 + 1 = j * 2 := hk
    omega
  · have hij : i = j + |s.delay| := by
      have : (i + s.delay) * 2 = j * 2 := hk
      rw [abs_of_neg hd]
      omega
    rw [hij]

/-- Every store of the loop targets a sample of an output frame in `[0, samples)`. -/
theorem loop_stores_index_range (s : AudioState α) (samples : Int) (w : Int × Int)
    (hw : w ∈ loop_stores s samples) : 0 ≤ w.1 ∧ w.1 < 2 * samples := by
  rw [mem_loop_stores] at hw
  obtain ⟨i, h0, h1, hw⟩ := hw
  by_cases hd : 0 ≤ s.delay
  · rw [abs_of_nonneg hd] at h1
    rw [mem_body_stores_nonneg s _ i _ hd] at hw
    rcases hw with ⟨h, rfl⟩ | ⟨h, rfl⟩
    · constructor <;> (show _ ; simp only ; omega)
    · constructor <;> (show _ ; simp only ; omega)
  · have hd : s.delay < 0 := not_le.mp hd
    rw [abs_of_neg hd] at h1
    rw [mem_body_stores_neg s _ i _ hd] at hw
    rcases hw with ⟨h, rfl⟩ | ⟨h, rfl⟩
    · constructor <;> (show _ ; simp only ; omega)
    · constructor <;> (show _ ; simp only ; omega)

/-- The frames written by a call with data remaining are frames of `[0, samples)`, so there
are at most `samples` of them. -/
theorem frames_count_le_samples (s : AudioState α) (len : Int) (hR : 0 < s.audio_len) :
    frames_written s len ≤ ((effective_len s len).tdiv 4).toNat := by
  unfold frames_written
  refine nodup_length_le _ _ (List.nodup_dedup _) ?_
  intro f hf
  rw [List.mem_dedup, List.mem_map] at hf
  obtain ⟨w, hw, rfl⟩ := hf
  unfold callback_stores at hw
  rw [if_neg (not_le.mpr hR)] at hw
  have := loop_stores_index_range s _ w hw
  constructor <;> omega

end CallbackLemmas

/-! ## Lemmas on the geometry computation -/

section GeometryLemmas

variable {α : Type} [LinearOrderedField α] [FloorRing α]

/-- Truncation toward zero commutes with negation. -/
theorem truncToInt_neg (x : α) : truncToInt (-x) = -truncToInt x := by
  unfold truncToInt
  rcases lt_trichotomy x 0 with h | h | h
  · rw [if_pos (by linarith), if_neg (by linarith), Int.floor_neg]
  · subst h; simp
  · rw [if_neg (by linarith), if_pos (le_of_lt h), Int.ceil_neg]

/-- Truncation of zero. -/
theorem truncToInt_zero : truncToInt (0 : α) = 0 := by
  unfold truncToInt; simp

end GeometryLemmas

/-- The geometry for distance 10 and angle 90 degrees, over the reals: the source lies on the
line through the ears, 9.9 from the right ear and 10.1 from the left ear. -/
theorem geometry_right_angle (freq : Int) :
    (geometry Real.cos Real.sin Real.sqrt Real.pi freq 10 90).y = 0 ∧
    (geometry Real.cos Real.sin Real.sqrt Real.pi freq 10 90).x = 10 ∧
    (geometry Real.cos Real.sin Real.sqrt Real.pi freq 10 90).er = 99 / 10 ∧
    (geometry Real.cos Real.sin Real.sqrt Real.pi freq 10 90).el = 101 / 10 := by
  have hθ : (90 : ℝ) / 180 * Real.pi = Real.pi / 2 := by ring
  have hxr : |(10 : ℝ) - 20 / 100 / 2| = 99 / 10 := by
    rw [abs_of_nonneg (by norm_num)]; norm_num
  have hxl : |(10 : ℝ) + 20 / 100 / 2| = 101 / 10 := by
    rw [abs_of_nonneg (by norm_num)]; norm_num
  simp only [geometry, hθ, Real.cos_pi_div_two, Real.sin_pi_div_two, mul_zero, mul_one,
    add_zero, hxr, hxl]
  refine ⟨trivial, trivial, ?_, ?_⟩
  · exact Real.sqrt_mul_self (by norm_num)
  · exact Real.sqrt_mul_self (by norm_num)

/-- The delay for distance 10, angle 90 degrees and sample rate 44100, over the reals:
`(10.1 - 9.9) / 320 * 44100 = 27.5625` is truncated to 27. -/
theorem geometry_right_angle_delay :
    (geometry Real.cos Real.sin Real.sqrt Real.pi 44100 10 90).delay = 27 := by
  obtain ⟨_, _, her, hel⟩ := geometry_right_angle 44100
  have hd : (geometry Real.cos Real.sin Real.sqrt Real.pi 44100 10 90).delay =
      truncToInt (((geometry Real.cos Real.sin Real.sqrt Real.pi 44100 10 90).el -
        (geometry Real.cos Real.sin Real.sqrt Real.pi 44100 10 90).er) / 320 *
        ((44100 : Int) : ℝ)) := rfl
  rw [hd, her, hel]
  unfold truncToInt
  rw [if_pos (by norm_num), Int.floor_eq_iff]
  constructor <;> norm_num

/-! ## Lemmas on splitting a request -/

section SplitLemmas

variable {α : Type}

/-- The callback changes neither the memory nor `delay` nor `balance`. -/
theorem audio_callback_params [LinearOrderedField α] [FloorRing α] (s : AudioState α)
    (stream : Int → Int) (len : Int) :
    (audio_callback s stream len).1.mem = s.mem ∧
    (audio_callback s stream len).1.delay = s.delay ∧
    (audio_callback s stream len).1.balance = s.balance := by
  unfold audio_callback
  split_ifs <;> exact ⟨rfl, rfl, rfl⟩

/-- Advancing the cursor by `c` whole frames shifts the merged values by `c` frames. -/
theorem merged_advance (s s' : AudioState α) (c : Int) (hm : s'.mem = s.mem)
    (hp : s'.audio_pos = s.audio_pos + 4 * c) (hl : s'.audio_len = s.audio_len - 4 * c)
    (i : Int) : merged s' i = merged s (c + i) := by
  unfold merged audio_sample
  rw [hm, hp, hl]
  have e1 : s.audio_pos + 4 * c + 2 * (i * 2) = s.audio_pos + 2 * ((c + i) * 2) := by ring
  have e2 : s.audio_pos + 4 * c + 2 * (i * 2 + 1) = s.audio_pos + 2 * ((c + i) * 2 + 1) := by
    ring
  rw [e1, e2]
  by_cases h : i * 4 > s.audio_len - 4 * c
  · rw [if_pos h, if_pos (by omega)]
  · rw [if_neg h, if_neg (by omega)]

end SplitLemmas

section SplitLemmas2

variable {α : Type} [LinearOrderedField α] [FloorRing α]

/-- The output of the loop run on a state advanced by `c` frames, at index `k`, is the output
of the loop run on the original state at index `2*c + k`, wherever both indices are inside
the frames the loops fill. -/
theorem loop_output_advance (s s' : AudioState α) (st st' : Int → Int)
    (samples samples' c k : Int) (hd : s'.delay = s.delay) (hb : s'.balance = s.balance)
    (hmerged : ∀ i : Int, merged s' i = merged s (c + i))
    (hc : 0 ≤ c) (hk0 : 0 ≤ k) (hk : k < 2 * samples') (hk' : 2 * c + k < 2 * samples) :
    ((loop_stores s' samples').foldl store st') k =
      ((loop_stores s samples).foldl store st) (2 * c + k) := by
  have hls : ∀ i : Int, lsamp s' i = lsamp s (c + i) := by
    intro i; unfold lsamp; rw [hb, hmerged]
  have hrs : ∀ i : Int, rsamp s' i = rsamp s (c + i) := by
    intro i; unfold rsamp; rw [hb, hmerged]
  rcases Int.emod_two_eq_zero_or_one k with hpar | hpar
  · have ek : k = (k / 2) * 2 := by omega
    have ek' : 2 * c + k = (c + k / 2) * 2 := by omega
    rw [ek', ek]
    simp only [Int.mul_ediv_cancel _ (by norm_num : (2 : Int) ≠ 0)]
    by_cases hdel : 0 ≤ s.delay
    · rw [loop_left_nonneg s' st' samples' (k / 2) (by rw [hd]; exact hdel) (by omega)
        (by omega), loop_left_nonneg s st samples (c + k / 2) hdel (by omega) (by omega), hls]
    · have hdel : s.delay < 0 := not_le.mp hdel
      rw [loop_left_neg s' st' samples' (k / 2) (by rw [hd]; exact hdel) (by omega)
        (by omega), loop_left_neg s st samples (c + k / 2) hdel (by omega) (by omega), hls,
        hd, add_assoc]
  · have ek : k = (k / 2) * 2 + 1 := by omega
    have ek' : 2 * c + k = (c + k / 2) * 2 + 1 := by omega
    rw [ek', ek]
    have e3 : ((k / 2) * 2 + 1) / 2 = k / 2 := by omega
    simp only [e3]
    by_cases hdel : 0 ≤ s.delay
    · rw [loop_right_nonneg s' st' samples' (k / 2) (by rw [hd]; exact hdel) (by omega)
        (by omega), loop_right_nonneg s st samples (c + k / 2) hdel (by omega) (by omega), hrs,
        hd, add_assoc]
    · have hdel : s.delay < 0 := not_le.mp hdel
      rw [loop_right_neg s' st' samples' (k / 2) (by rw [hd]; exact hdel) (by omega)
        (by omega), loop_right_neg s st samples (c + k / 2) hdel (by omega) (by omega), hrs]

end SplitLemmas2

/-! ## Lemmas on the sample range -/

/-- Half of an `int16_t`, with C division. -/
theorem tdiv_two_bounds (x : Int) (h : int16_range x) :
    -16384 ≤ x.tdiv 2 ∧ x.tdiv 2 ≤ 16383 := by
  obtain ⟨h1, h2⟩ := h
  by_cases h0 : 0 ≤ x
  · rw [Int.tdiv_eq_ediv h0 (by norm_num)]
    omega
  · have h3 : (-x).tdiv 2 = -x / 2 := Int.tdiv_eq_ediv (by omega) (by norm_num)
    rw [Int.neg_tdiv] at h3
    omega

/-- The result of a conversion to `int16_t` is an `int16_t`. -/
theorem toI16_range (x : Int) : int16_range (toI16 x) := by
  unfold toI16 int16_range
  split_ifs <;> omega

/-- An `int16_t` value is unchanged by the conversion to `int16_t`. -/
theorem toI16_of_range (x : Int) (h : int16_range x) : toI16 x = x := by
  obtain ⟨h1, h2⟩ := h
  unfold toI16
  split_ifs <;> omega

/-! ## Lemmas on the sign and the size of the delay -/

section TruncLemmas

variable {α : Type} [LinearOrderedField α] [FloorRing α]

/-- A positive truncation comes from a positive value. -/
theorem truncToInt_pos (z : α) (h : 0 < truncToInt z) : 0 < z := by
  by_contra hz
  have hz : z ≤ 0 := not_lt.mp hz
  unfold truncToInt at h
  rcases eq_or_lt_of_le hz with h0 | hneg
  · rw [h0] at h; simp at h
  · rw [if_neg (not_le.mpr hneg)] at h
    have : ⌈z⌉ ≤ 0 := Int.ceil_le.mpr (by simpa using hz)
    omega

/-- A negative truncation comes from a negative value. -/
theorem truncToInt_neg_of_neg (z : α) (h : truncToInt z < 0) : z < 0 := by
  by_contra hz
  have hz : 0 ≤ z := not_lt.mp hz
  unfold truncToInt at h
  rw [if_pos hz] at h
  have : 0 ≤ ⌊z⌋ := Int.floor_nonneg.mpr hz
  omega

/-- Truncation toward zero does not increase the magnitude. -/
theorem abs_truncToInt_le (z : α) : ((|truncToInt z| : Int) : α) ≤ |z| := by
  unfold truncToInt
  by_cases hz : 0 ≤ z
  · rw [if_pos hz, abs_of_nonneg (Int.floor_nonneg.mpr hz), abs_of_nonneg hz]
    exact Int.floor_le z
  · have hz : z < 0 := not_le.mp hz
    have hc : ⌈z⌉ ≤ 0 := Int.ceil_le.mpr (by simpa using le_of_lt hz)
    rw [if_neg (not_le.mpr hz), abs_of_nonpos hc, abs_of_neg hz]
    push_cast
    exact neg_le_neg (Int.le_ceil z)

end TruncLemmas

/-- The distances of a point `(x, y)` from the two ears at `(-0.1, 0)` and `(0.1, 0)` differ
by at most the ear separation `0.20` (triangle inequality). -/
theorem ear_distance_diff (x y : ℝ) :
    |Real.sqrt (|x + 20 / 100 / 2| * |x + 20 / 100 / 2| + y * y) -
      Real.sqrt (|x - 20 / 100 / 2| * |x - 20 / 100 / 2| + y * y)| ≤ 20 / 100 := by
  have hl : |x + 20 / 100 / 2| * |x + 20 / 100 / 2| = (x + 20 / 100 / 2) ^ 2 := by
    rw [abs_mul_abs_self]; ring
  have hr : |x - 20 / 100 / 2| * |x - 20 / 100 / 2| = (x - 20 / 100 / 2) ^ 2 := by
    rw [abs_mul_abs_self]; ring
  rw [hl, hr]
  have hyy : 0 ≤ y * y := mul_self_nonneg y
  have hel0 := Real.sqrt_nonneg ((x + 20 / 100 / 2) ^ 2 + y * y)
  have her0 := Real.sqrt_nonneg ((x - 20 / 100 / 2) ^ 2 + y * y)
  have hel2 := Real.sq_sqrt (show 0 ≤ (x + 20 / 100 / 2) ^ 2 + y * y by positivity)
  have her2 := Real.sq_sqrt (show 0 ≤ (x - 20 / 100 / 2) ^ 2 + y * y by positivity)
  have hl1 : |x + 20 / 100 / 2| ≤ Real.sqrt ((x + 20 / 100 / 2) ^ 2 + y * y) :=
    Real.abs_le_sqrt (by linarith)
  have hr1 : |x - 20 / 100 / 2| ≤ Real.sqrt ((x - 20 / 100 / 2) ^ 2 + y * y) :=
    Real.abs_le_sqrt (by linarith)
  have hl2 := neg_abs_le (x + 20 / 100 / 2)
  have hr2 := le_abs_self (x - 20 / 100 / 2)
  rw [abs_le]
  constructor
  · have : Real.sqrt ((x - 20 / 100 / 2) ^ 2 + y * y) ≤
        Real.sqrt ((x + 20 / 100 / 2) ^ 2 + y * y) + 20 / 100 := by
      apply Real.sqrt_le_iff.mpr
      constructor
      · linarith
      · nlinarith
    linarith
  · have : Real.sqrt ((x + 20 / 100 / 2) ^ 2 + y * y) ≤
        Real.sqrt ((x - 20 / 100 / 2) ^ 2 + y * y) + 20 / 100 := by
      apply Real.sqrt_le_iff.mpr
      constructor
      · linarith
      · nlinarith
    linarith

/-! ## The claims -/

section Claims

variable {α : Type} [LinearOrderedField α] [FloorRing α]

/-- C3, the example as the spec states it, refuted on the example buffer (exactly four frames
remaining, 16 bytes requested, delay 1, balance 1): the right sample of output frame 0 is
`-100` (source frame 1), not `100`; the left sample of frame 0 is stored (with `100`); and
nothing is stored at output frame 4. -/
theorem delay_one_example_refuted :
    (audio_callback (example_state 1 1 16) silence 16).2 1 = -100 ∧
    (0, 100) ∈ callback_stores (example_state 1 1 16) 16 ∧
    (∀ w ∈ callback_stores (example_state 1 1 16) 16, w.1 ≠ 8) ∧
    ¬ ((audio_callback (example_state 1 1 16) silence 16).2 1 = 100 ∧
       (audio_callback (example_state 1 1 16) silence 16).2 3 = -100 ∧
       (audio_callback (example_state 1 1 16) silence 16).2 5 = 200 ∧
       (audio_callback (example_state 1 1 16) silence 16).2 7 = 0 ∧
       (2, 100) ∈ callback_stores (example_state 1 1 16) 16 ∧
       (4, -100) ∈ callback_stores (example_state 1 1 16) 16 ∧
       (6, 200) ∈ callback_stores (example_state 1 1 16) 16 ∧
       (8, 0) ∈ callback_stores (example_state 1 1 16) 16 ∧
       (∀ w ∈ callback_stores (example_state 1 1 16) 16, w.1 ≠ 0)) := by
  have hst : callback_stores (example_state 1 1 16) 16 =
      loop_stores (example_state 1 1 16) 4 :=
    callback_stores_eq (example_state 1 1 16) 16 (by decide) (by decide) (by decide)
  have h1 : (audio_callback (example_state 1 1 16) silence 16).2 1 = -100 := by
    rw [audio_callback_stream, hst]
    have h := loop_right_nonneg (example_state 1 1 16) silence 4 0 (by decide) (by decide)
      (by decide)
    rw [rsamp_balance_one _ rfl] at h
    exact h
  have h0 : (0, 100) ∈ callback_stores (example_state 1 1 16) 16 := by
    rw [hst]
    have h := left_mem_loop_stores_nonneg (example_state 1 1 16) 4 0 (by decide) (by decide)
      (by decide)
    rw [lsamp_balance_one _ rfl] at h
    exact h
  refine ⟨h1, h0, ?_, ?_⟩
  · intro w hw h8
    rw [hst] at hw
    have := (loop_stores_index_range _ _ w hw).2
    omega
  · intro hc
    rw [h1] at hc
    exact absurd hc.1 (by decide)

/-- C3 as amended: for a source whose first four frames have merged values
`[100, -100, 200, 0]`, with at least 16 bytes remaining, 16 bytes requested, delay 1 and
balance 1, the call stores the left values `[100, -100, 200, 0]` at output frames
`[0, 1, 2, 3]` and the right values `[-100, 200, 0]` at output frames `[0, 1, 2]`; when the
source has a fifth frame (at least 20 bytes remaining) the right sample of output frame 3 is
the merged value of that frame, source frame 4; the left sample of frame 0 is stored, and no
sample outside frames 0..3 (in particular none of frame 4) is changed. -/
theorem spec_example_delay_one (s : AudioState α) (stream : Int → Int)
    (hd : s.delay = 1) (hb : s.balance = 1) (hR : 16 ≤ s.audio_len)
    (h0 : merged s 0 = 100) (h1 : merged s 1 = -100) (h2 : merged s 2 = 200)
    (h3 : merged s 3 = 0) :
    ((audio_callback s stream 16).2 0 = 100 ∧ (audio_callback s stream 16).2 2 = -100 ∧
      (audio_callback s stream 16).2 4 = 200 ∧ (audio_callback s stream 16).2 6 = 0) ∧
    ((audio_callback s stream 16).2 1 = -100 ∧ (audio_callback s stream 16).2 3 = 200 ∧
      (audio_callback s stream 16).2 5 = 0 ∧
      (20 ≤ s.audio_len → (audio_callback s stream 16).2 7 = merged s 4)) ∧
    (0, 100) ∈ callback_stores s 16 ∧
    (∀ k : Int, k < 0 ∨ 8 ≤ k → (audio_callback s stream 16).2 k = stream k) := by
  have hd0 : 0 ≤ s.delay := by omega
  have hst : callback_stores s 16 = loop_stores s 4 := by
    rw [callback_stores_eq s 16 (by omega) (by decide) (by decide), min_eq_left hR]
    rfl
  have hl : ∀ j : Int, 0 ≤ j → j < 4 →
      (audio_callback s stream 16).2 (j * 2) = merged s j := by
    intro j hj0 hj
    rw [audio_callback_stream, hst, loop_left_nonneg s stream 4 j hd0 hj0 hj,
      lsamp_balance_one s hb]
  have hr : ∀ j : Int, 0 ≤ j → j < 4 →
      (audio_callback s stream 16).2 (j * 2 + 1) = merged s (j + 1) := by
    intro j hj0 hj
    rw [audio_callback_stream, hst, loop_right_nonneg s stream 4 j hd0 hj0 hj,
      rsamp_balance_one s hb, hd]
  refine ⟨⟨?_, ?_, ?_, ?_⟩, ⟨?_, ?_, ?_, ?_⟩, ?_, ?_⟩
  · rw [← h0]; exact hl 0 (by decide) (by decide)
  · rw [← h1]; exact hl 1 (by decide) (by decide)
  · rw [← h2]; exact hl 2 (by decide) (by decide)
  · rw [← h3]; exact hl 3 (by decide) (by decide)
  · rw [← h1]; exact hr 0 (by decide) (by decide)
  · rw [← h2]; exact hr 1 (by decide) (by decide)
  · rw [← h3]; exact hr 2 (by decide) (by decide)
  · exact fun _ => hr 3 (by decide) (by decide)
  · rw [hst]
    have h := left_mem_loop_stores_nonneg s 4 0 hd0 (by decide) (by decide)
    rw [lsamp_balance_one s hb, h0] at h
    exact h
  · intro k hk
    rw [audio_callback_stream, hst]
    apply foldl_store_of_not_mem
    intro w hw hwk
    have := loop_stores_index_range s 4 w hw
    omega

/-- Witness of the amended C3 on the example buffer, whose frame 4 has merged value 7. -/
theorem spec_example_delay_one_witness :
    ((example_state 1 1 20).delay = 1 ∧ (example_state 1 1 20).balance = 1 ∧
      16 ≤ (example_state 1 1 20).audio_len ∧ 20 ≤ (example_state 1 1 20).audio_len ∧
      merged (example_state 1 1 20) 0 = 100 ∧
      merged (example_state 1 1 20) 1 = -100 ∧ merged (example_state 1 1 20) 2 = 200 ∧
      merged (example_state 1 1 20) 3 = 0 ∧ merged (example_state 1 1 20) 4 = 7) ∧
    ((audio_callback (example_state 1 1 20) silence 16).2 1 = -100 ∧
      (audio_callback (example_state 1 1 20) silence 16).2 3 = 200 ∧
      (audio_callback (example_state 1 1 20) silence 16).2 5 = 0 ∧
      (audio_callback (example_state 1 1 20) silence 16).2 7 =
        merged (example_state 1 1 20) 4) :=
  ⟨⟨rfl, rfl, by decide, by decide, by decide, by decide, by decide, by decide, by decide⟩,
    (spec_example_delay_one (example_state 1 1 20) silence rfl rfl (by decide) (by decide)
      (by decide) (by decide) (by decide)).2.1.1,
    (spec_example_delay_one (example_state 1 1 20) silence rfl rfl (by decide) (by decide)
      (by decide) (by decide) (by decide)).2.1.2.1,
    (spec_example_delay_one (example_state 1 1 20) silence rfl rfl (by decide) (by decide)
      (by decide) (by decide) (by decide)).2.1.2.2.1,
    (spec_example_delay_one (example_state 1 1 20) silence rfl rfl (by decide) (by decide)
      (by decide) (by decide) (by decide)).2.1.2.2.2 (by decide)⟩

/-- C4: for every call with remaining length `R > 0` (a `uint32_t`) and requested length
`len >= 0` (an `int`), whatever `delay` and `balance` are, the bytes consumed are exactly
`min(len, R)`: the cursor advances by `min(len, R)`, the remaining length becomes
`R - min(len, R)`, and the advance is at most `len` and at most `R`. -/
theorem audio_callback_consumes_min (s : AudioState α) (stream : Int → Int) (len : Int)
    (hR : 0 < s.audio_len) (hR32 : uint32_range s.audio_len) (hn : 0 ≤ len)
    (hlen : int_range len) :
    (audio_callback s stream len).1.audio_pos - s.audio_pos = min len s.audio_len ∧
    (audio_callback s stream len).1.audio_len = s.audio_len - min len s.audio_len ∧
    (audio_callback s stream len).1.audio_pos - s.audio_pos ≤ len ∧
    (audio_callback s stream len).1.audio_pos - s.audio_pos ≤ s.audio_len := by
  obtain ⟨hp, hl⟩ := audio_callback_state s stream len hR hR32 hn hlen
  have h1 := min_le_left len s.audio_len
  have h2 := min_le_right len s.audio_len
  refine ⟨by rw [hp]; ring, hl, ?_, ?_⟩ <;> rw [hp] <;> omega

/-- Witness of C4 on the example buffer: 20 bytes remaining, 16 requested. -/
theorem audio_callback_consumes_min_witness :
    (0 < (example_state 3 (1 / 2) 20).audio_len ∧
      uint32_range (example_state 3 (1 / 2) 20).audio_len ∧ (0 : Int) ≤ 16 ∧ int_range 16) ∧
    (audio_callback (example_state 3 (1 / 2) 20) silence 16).1.audio_pos -
      (example_state 3 (1 / 2) 20).audio_pos = min 16 (example_state 3 (1 / 2) 20).audio_len :=
  ⟨by decide,
    (audio_callback_consumes_min (example_state 3 (1 / 2) 20) silence 16 (by decide)
      (by decide) (by decide) (by decide)).1⟩

/-- C5: when the remaining length is 0, `audio_callback` does nothing, for every requested
length, delay and balance: the state (cursor and remaining length included) and every sample
of the output buffer are unchanged, and the call makes no store. -/
theorem audio_callback_empty_noop (s : AudioState α) (stream : Int → Int) (len : Int)
    (h : s.audio_len = 0) :
    audio_callback s stream len = (s, stream) ∧
    (audio_callback s stream len).1.audio_pos = s.audio_pos ∧
    (audio_callback s stream len).1.audio_len = 0 ∧
    (∀ k : Int, (audio_callback s stream len).2 k = stream k) ∧
    callback_stores s len = [] := by
  rw [audio_callback_of_empty s stream len h]
  refine ⟨rfl, rfl, h, fun _ => rfl, ?_⟩
  unfold callback_stores
  rw [if_pos (le_of_eq h)]

/-- Witness of C5 on the example buffer with nothing remaining. -/
theorem audio_callback_empty_noop_witness :
    (example_state 1 1 0).audio_len = 0 ∧
    audio_callback (example_state 1 1 0) silence 16 = (example_state 1 1 0, silence) :=
  ⟨rfl, (audio_callback_empty_noop (example_state 1 1 0) silence 16 rfl).1⟩

/-- C6: over every finite sequence of invocations with non-negative requested lengths (each
an `int`) and arbitrary `delay` and `balance` at each call, started with a remaining length
that is a `uint32_t`: every call returns; the remaining length is non-increasing along the
sequence; each call decrements it by exactly what the cursor advanced in that call; once it
is 0 it is 0 at every later call; and a call entered with remaining length 0 changes neither
the state nor the output buffer. -/
theorem remaining_length_invariant (calls : List (Call α)) (s : AudioState α)
    (hR32 : uint32_range s.audio_len)
    (hcalls : ∀ c ∈ calls, 0 ≤ c.len ∧ int_range c.len) :
    (run_calls s calls).length = calls.length ∧
    List.Pairwise (fun a b : Int => a ≥ b)
      (s.audio_len :: (run_calls s calls).map (fun r => r.after.audio_len)) ∧
    (∀ r ∈ run_calls s calls,
      r.before.audio_len - r.after.audio_len = r.after.audio_pos - r.before.audio_pos) ∧
    List.Pairwise (fun a b : CallRecord α => a.after.audio_len = 0 →
      b.before.audio_len = 0 ∧ b.after.audio_len = 0) (run_calls s calls) ∧
    (∀ r ∈ run_calls s calls, r.before.audio_len = 0 →
      r.after = r.before ∧ r.out = r.call.stream) := by
  induction calls generalizing s with
  | nil => simp [run_calls]
  | cons c cs ih =>
    obtain ⟨hn, hlen⟩ := hcalls c (List.mem_cons_self _ _)
    have hcs : ∀ c' ∈ cs, 0 ≤ c'.len ∧ int_range c'.len :=
      fun c' hc' => hcalls c' (List.mem_cons_of_mem _ hc')
    have hstep := audio_callback_step { s with delay := c.delay, balance := c.balance }
      c.stream c.len hR32 hn hlen
    have hbound := run_calls_bound cs _ hstep.1 hcs
    obtain ⟨ih1, ih2, ih3, ih4, ih5⟩ := ih _ hstep.1 hcs
    simp only [run_calls, List.length_cons, List.map_cons, List.pairwise_cons, List.mem_cons,
      forall_eq_or_imp]
    rw [List.pairwise_cons] at ih2
    refine ⟨by rw [ih1], ⟨⟨hstep.2.1, ?_⟩, ih2⟩, ⟨hstep.2.2, ih3⟩, ⟨?_, ih4⟩, ⟨?_, ih5⟩⟩
    · intro b hb
      exact le_trans (ih2.1 b hb) hstep.2.1
    · intro b hb hzero
      obtain ⟨h1, h2, h3, h4⟩ := hbound b hb
      have := h1.1
      have := h3.1
      constructor <;> omega
    · intro hzero
      have hnoop := audio_callback_of_empty
        { s with delay := c.delay, balance := c.balance } c.stream c.len hzero
      rw [hnoop]
      exact ⟨rfl, rfl⟩

/-- Witness of C6: the three `example_calls` on the example buffer with 20 bytes remaining
(the remaining length goes 20, 4, 0, 0). -/
theorem remaining_length_invariant_witness :
    (uint32_range (example_state 0 1 20).audio_len ∧
      ∀ c ∈ example_calls, 0 ≤ c.len ∧ int_range c.len) ∧
    (run_calls (example_state 0 1 20) example_calls).length = example_calls.length ∧
    List.Pairwise (fun a b : Int => a ≥ b)
      ((example_state 0 1 20).audio_len ::
        (run_calls (example_state 0 1 20) example_calls).map (fun r => r.after.audio_len)) :=
  ⟨by decide,
    (remaining_length_invariant example_calls (example_state 0 1 20) (by decide)
      (by decide)).1,
    (remaining_length_invariant example_calls (example_state 0 1 20) (by decide)
      (by decide)).2.1⟩

/-- A remark on line 121 outside the range of byte lengths: a negative `len` is compared as
a `uint32_t` (`-4` as 4294967292), so `len` becomes `audio_len`; with 8 bytes remaining and
delay 0 the call then writes 2 output frames.  The audio device passes the byte size of its
buffer, never a negative length. -/
theorem negative_len_example :
    effective_len (example_state 0 1 8) (-4) = 8 ∧
    frames_written (example_state 0 1 8) (-4) = 2 ∧
    ¬ ((frames_written (example_state 0 1 8) (-4) : Int) ≤
        (-4 : Int).tdiv 4 + |(example_state 0 1 8).delay|) := by
  decide

/-- C7: for every call of `audio_callback` (the requested length is a byte count,
`len >= 0`), the number of distinct output frames that receive a left or a right sample is
at most `requestedLength/4 + |delay|` (it is at most `requestedLength/4`). -/
theorem frames_written_le (s : AudioState α) (len : Int) (hn : 0 ≤ len) :
    (frames_written s len : Int) ≤ len.tdiv 4 + |s.delay| ∧
    (frames_written s len : Int) ≤ len.tdiv 4 := by
  have hq : len.tdiv 4 = len / 4 := Int.tdiv_eq_ediv hn (by norm_num)
  have hd := abs_nonneg s.delay
  suffices h : (frames_written s len : Int) ≤ len.tdiv 4 from ⟨by omega, h⟩
  by_cases hR : 0 < s.audio_len
  · have h1 := frames_count_le_samples s len hR
    have h2 := effective_len_le s len hR hn
    by_cases hE : 0 ≤ effective_len s len
    · rw [Int.tdiv_eq_ediv hE (by norm_num)] at h1
      omega
    · have hneg : (effective_len s len).tdiv 4 ≤ 0 := by
        have h3 : (-effective_len s len).tdiv 4 = -effective_len s len / 4 :=
          Int.tdiv_eq_ediv (by omega) (by norm_num)
        rw [Int.neg_tdiv] at h3
        omega
      omega
  · have h0 : frames_written s len = 0 := by
      unfold frames_written callback_stores
      rw [if_pos (not_lt.mp hR)]
      rfl
    rw [h0]
    omega

/-- Witness of C7 on the example buffer: 20 bytes remaining, 16 requested,
delay 1. -/
theorem frames_written_le_witness :
    (0 : Int) ≤ 16 ∧
    (frames_written (example_state 1 1 20) 16 : Int) ≤
      (16 : Int).tdiv 4 + |(example_state 1 1 20).delay| :=
  ⟨by decide, (frames_written_le (example_state 1 1 20) 16 (by decide)).1⟩

end Claims

/-- C8: in exact real arithmetic, for every distance `l` and every sample rate, the geometry
computation with angle `t = 0` gives `delay = 0` and `balance = 1`: `x = 0`, both lateral
offsets are `d/2 = 0.20/2`, and the two ear distances are equal and positive. -/
theorem geometry_straight_ahead (l : ℝ) (freq : Int) :
    (geometry Real.cos Real.sin Real.sqrt Real.pi freq l 0).delay = 0 ∧
    (geometry Real.cos Real.sin Real.sqrt Real.pi freq l 0).balance = 1 ∧
    (geometry Real.cos Real.sin Real.sqrt Real.pi freq l 0).x = 0 ∧
    (geometry Real.cos Real.sin Real.sqrt Real.pi freq l 0).x_r = (20 / 100) / 2 ∧
    (geometry Real.cos Real.sin Real.sqrt Real.pi freq l 0).x_l = (20 / 100) / 2 ∧
    (geometry Real.cos Real.sin Real.sqrt Real.pi freq l 0).er =
      (geometry Real.cos Real.sin Real.sqrt Real.pi freq l 0).el ∧
    0 < (geometry Real.cos Real.sin Real.sqrt Real.pi freq l 0).el := by
  have hpos : 0 < Real.sqrt (|(20 / 100 : ℝ) / 2| * |(20 / 100 : ℝ) / 2| + l * l) := by
    apply Real.sqrt_pos.mpr
    have : 0 ≤ l * l := mul_self_nonneg l
    have : (0 : ℝ) < |(20 / 100 : ℝ) / 2| * |(20 / 100 : ℝ) / 2| := by
      norm_num [abs_of_pos]
    linarith
  simp only [geometry, zero_div, zero_mul, Real.cos_zero, Real.sin_zero, mul_zero, mul_one,
    zero_sub, zero_add, abs_neg, sub_self, truncToInt_zero]
  refine ⟨trivial, div_self (ne_of_gt hpos), trivial, ?_, ?_, trivial, hpos⟩
  · norm_num [abs_of_pos]
  · norm_num [abs_of_pos]

/-- C9: in exact real arithmetic, for every distance `l > 0`, angle `t` and sample rate,
replacing `t` by `-t` exchanges the two ear distances `er` and `el`, negates the computed
delay (the conversion truncates toward zero), and, when both ear distances are non-zero, turns
the balance into `el / er`, the reciprocal of the balance for `t`. -/
theorem geometry_mirror (l t : ℝ) (freq : Int) (hl : 0 < l) :
    (geometry Real.cos Real.sin Real.sqrt Real.pi freq l (-t)).er =
      (geometry Real.cos Real.sin Real.sqrt Real.pi freq l t).el ∧
    (geometry Real.cos Real.sin Real.sqrt Real.pi freq l (-t)).el =
      (geometry Real.cos Real.sin Real.sqrt Real.pi freq l t).er ∧
    (geometry Real.cos Real.sin Real.sqrt Real.pi freq l (-t)).delay =
      -(geometry Real.cos Real.sin Real.sqrt Real.pi freq l t).delay ∧
    ((geometry Real.cos Real.sin Real.sqrt Real.pi freq l t).er ≠ 0 →
     (geometry Real.cos Real.sin Real.sqrt Real.pi freq l t).el ≠ 0 →
      (geometry Real.cos Real.sin Real.sqrt Real.pi freq l (-t)).balance =
        (geometry Real.cos Real.sin Real.sqrt Real.pi freq l t).el /
          (geometry Real.cos Real.sin Real.sqrt Real.pi freq l t).er ∧
      (geometry Real.cos Real.sin Real.sqrt Real.pi freq l (-t)).balance =
        1 / (geometry Real.cos Real.sin Real.sqrt Real.pi freq l t).balance) := by
  have _ := hl
  have hθ : -t / 180 * Real.pi = -(t / 180 * Real.pi) := by ring
  have hr : |-(l * Real.sin (t / 180 * Real.pi)) - (20 / 100 : ℝ) / 2| =
      |l * Real.sin (t / 180 * Real.pi) + (20 / 100 : ℝ) / 2| := by
    rw [← abs_neg]; congr 1; ring
  have hl' : |-(l * Real.sin (t / 180 * Real.pi)) + (20 / 100 : ℝ) / 2| =
      |l * Real.sin (t / 180 * Real.pi) - (20 / 100 : ℝ) / 2| := by
    rw [← abs_neg]; congr 1; ring
  simp only [geometry, hθ, Real.cos_neg, Real.sin_neg, mul_neg, hr, hl']
  refine ⟨trivial, trivial, ?_, ?_⟩
  · rw [← truncToInt_neg]; congr 1; ring
  · intro _ _
    refine ⟨trivial, ?_⟩
    rw [one_div, inv_div]

/-- Witness of C9 at distance 10, angle 90 degrees, sample rate 44100, where the ear
distances are 9.9 and 10.1. -/
theorem geometry_mirror_witness :
    ((0 : ℝ) < 10 ∧
      (geometry Real.cos Real.sin Real.sqrt Real.pi 44100 10 90).er ≠ 0 ∧
      (geometry Real.cos Real.sin Real.sqrt Real.pi 44100 10 90).el ≠ 0) ∧
    (geometry Real.cos Real.sin Real.sqrt Real.pi 44100 10 (-90)).delay =
      -(geometry Real.cos Real.sin Real.sqrt Real.pi 44100 10 90).delay ∧
    (geometry Real.cos Real.sin Real.sqrt Real.pi 44100 10 (-90)).balance =
      (geometry Real.cos Real.sin Real.sqrt Real.pi 44100 10 90).el /
        (geometry Real.cos Real.sin Real.sqrt Real.pi 44100 10 90).er :=
  have her : (geometry Real.cos Real.sin Real.sqrt Real.pi 44100 10 90).er ≠ 0 := by
    rw [(geometry_right_angle 44100).2.2.1]; norm_num
  have hel : (geometry Real.cos Real.sin Real.sqrt Real.pi 44100 10 90).el ≠ 0 := by
    rw [(geometry_right_angle 44100).2.2.2]; norm_num
  ⟨⟨by norm_num, her, hel⟩, (geometry_mirror 10 90 44100 (by norm_num)).2.2.1,
    ((geometry_mirror 10 90 44100 (by norm_num)).2.2.2 her hel).1⟩

/-- C10 as stated, refuted: for distance 10, angle 90 degrees and sample rate 44100 the
computed delay is 27, not 28: the code converts `27.5625` to `int`, which truncates, while
rounding the same quantity gives the 28 of the claim. -/
theorem geometry_right_angle_delay_not_28 :
    (geometry Real.cos Real.sin Real.sqrt Real.pi 44100 10 90).delay = 27 ∧
    (geometry Real.cos Real.sin Real.sqrt Real.pi 44100 10 90).delay ≠ 28 ∧
    round ((((101 : ℝ) / 10 - 99 / 10) / 320) * 44100) = 28 := by
  refine ⟨geometry_right_angle_delay, ?_, ?_⟩
  · rw [geometry_right_angle_delay]; decide
  · rw [round_eq, Int.floor_eq_iff]
    constructor <;> norm_num

/-- C10 as amended: for distance 10, angle 90 degrees, ear separation 0.20, speed of sound
320 and sample rate 44100, in exact real arithmetic the geometry computation gives
`er = 9.9`, `el = 10.1`, a delay of 27 samples (`(10.1 - 9.9) / 320 * 44100 = 27.5625`
truncated toward zero) and `balance = 9.9 / 10.1`. -/
theorem geometry_right_angle_values :
    (geometry Real.cos Real.sin Real.sqrt Real.pi 44100 10 90).er = 99 / 10 ∧
    (geometry Real.cos Real.sin Real.sqrt Real.pi 44100 10 90).el = 101 / 10 ∧
    (geometry Real.cos Real.sin Real.sqrt Real.pi 44100 10 90).delay = 27 ∧
    (geometry Real.cos Real.sin Real.sqrt Real.pi 44100 10 90).delay =
      truncToInt ((((101 : ℝ) / 10 - 99 / 10) / 320) * 44100) ∧
    (geometry Real.cos Real.sin Real.sqrt Real.pi 44100 10 90).balance =
      (99 / 10) / (101 / 10) := by
  obtain ⟨_, _, her, hel⟩ := geometry_right_angle 44100
  have hb : (geometry Real.cos Real.sin Real.sqrt Real.pi 44100 10 90).balance =
      (geometry Real.cos Real.sin Real.sqrt Real.pi 44100 10 90).er /
        (geometry Real.cos Real.sin Real.sqrt Real.pi 44100 10 90).el := rfl
  refine ⟨her, hel, geometry_right_angle_delay, ?_, by rw [hb, her, hel]⟩
  rw [geometry_right_angle_delay]
  unfold truncToInt
  rw [if_pos (by norm_num), eq_comm, Int.floor_eq_iff]
  constructor <;> norm_num

/-- C11: in exact real arithmetic, for a positive sample rate and non-zero ear distances, the
computed pair is sign-consistent: `delay > 0` implies `er < el` and `balance < 1`;
`delay < 0` implies `er > el` and `balance > 1`.  Hence a callback state holding this pair
that takes the `delay >= 0` branch with `delay != 0` also takes the `balance <= 1` branch
(`rsamp` is the merged value, the right channel has full amplitude), and one that takes the
`delay < 0` branch takes the `balance > 1` branch (`lsamp` is the merged value). -/
theorem geometry_sign_consistent (l t : ℝ) (freq : Int) (hfreq : 0 < freq)
    (her : (geometry Real.cos Real.sin Real.sqrt Real.pi freq l t).er ≠ 0)
    (hel : (geometry Real.cos Real.sin Real.sqrt Real.pi freq l t).el ≠ 0) :
    (0 < (geometry Real.cos Real.sin Real.sqrt Real.pi freq l t).delay →
      (geometry Real.cos Real.sin Real.sqrt Real.pi freq l t).er <
        (geometry Real.cos Real.sin Real.sqrt Real.pi freq l t).el ∧
      (geometry Real.cos Real.sin Real.sqrt Real.pi freq l t).balance < 1) ∧
    ((geometry Real.cos Real.sin Real.sqrt Real.pi freq l t).delay < 0 →
      (geometry Real.cos Real.sin Real.sqrt Real.pi freq l t).el <
        (geometry Real.cos Real.sin Real.sqrt Real.pi freq l t).er ∧
      1 < (geometry Real.cos Real.sin Real.sqrt Real.pi freq l t).balance) ∧
    (∀ s : AudioState ℝ,
      s.delay = (geometry Real.cos Real.sin Real.sqrt Real.pi freq l t).delay →
      s.balance = (geometry Real.cos Real.sin Real.sqrt Real.pi freq l t).balance →
      (0 ≤ s.delay → s.delay ≠ 0 → s.balance ≤ 1 ∧ ∀ i : Int, rsamp s i = merged s i) ∧
      (s.delay < 0 → ¬ s.balance ≤ 1 ∧ ∀ i : Int, lsamp s i = merged s i)) := by
  have _ := her
  have hfr : (0 : ℝ) < (freq : ℝ) := by exact_mod_cast hfreq
  have hel0 : 0 < (geometry Real.cos Real.sin Real.sqrt Real.pi freq l t).el :=
    lt_of_le_of_ne (Real.sqrt_nonneg _) (Ne.symm hel)
  have hdelay : (geometry Real.cos Real.sin Real.sqrt Real.pi freq l t).delay =
      truncToInt (((geometry Real.cos Real.sin Real.sqrt Real.pi freq l t).el -
        (geometry Real.cos Real.sin Real.sqrt Real.pi freq l t).er) / 320 * (freq : ℝ)) := rfl
  have hbal : (geometry Real.cos Real.sin Real.sqrt Real.pi freq l t).balance =
      (geometry Real.cos Real.sin Real.sqrt Real.pi freq l t).er /
        (geometry Real.cos Real.sin Real.sqrt Real.pi freq l t).el := rfl
  have hpos : 0 < (geometry Real.cos Real.sin Real.sqrt Real.pi freq l t).delay →
      (geometry Real.cos Real.sin Real.sqrt Real.pi freq l t).er <
        (geometry Real.cos Real.sin Real.sqrt Real.pi freq l t).el ∧
      (geometry Real.cos Real.sin Real.sqrt Real.pi freq l t).balance < 1 := by
    intro hd
    rw [hdelay] at hd
    have hz := truncToInt_pos _ hd
    have h2 : (geometry Real.cos Real.sin Real.sqrt Real.pi freq l t).er <
        (geometry Real.cos Real.sin Real.sqrt Real.pi freq l t).el := by
      by_contra hc
      have h3 : ((geometry Real.cos Real.sin Real.sqrt Real.pi freq l t).er -
          (geometry Real.cos Real.sin Real.sqrt Real.pi freq l t).el) / 320 * (freq : ℝ) ≥ 0 :=
        mul_nonneg (div_nonneg (by linarith [not_lt.mp hc]) (by norm_num)) (le_of_lt hfr)
      have h4 : ((geometry Real.cos Real.sin Real.sqrt Real.pi freq l t).er -
          (geometry Real.cos Real.sin Real.sqrt Real.pi freq l t).el) / 320 * (freq : ℝ) =
          -(((geometry Real.cos Real.sin Real.sqrt Real.pi freq l t).el -
          (geometry Real.cos Real.sin Real.sqrt Real.pi freq l t).er) / 320 * (freq : ℝ)) := by
        ring
      linarith
    exact ⟨h2, by rw [hbal]; exact (div_lt_one hel0).mpr h2⟩
  have hneg : (geometry Real.cos Real.sin Real.sqrt Real.pi freq l t).delay < 0 →
      (geometry Real.cos Real.sin Real.sqrt Real.pi freq l t).el <
        (geometry Real.cos Real.sin Real.sqrt Real.pi freq l t).er ∧
      1 < (geometry Real.cos Real.sin Real.sqrt Real.pi freq l t).balance := by
    intro hd
    rw [hdelay] at hd
    have hz := truncToInt_neg_of_neg _ hd
    have h2 : (geometry Real.cos Real.sin Real.sqrt Real.pi freq l t).el <
        (geometry Real.cos Real.sin Real.sqrt Real.pi freq l t).er := by
      by_contra hc
      have h3 : ((geometry Real.cos Real.sin Real.sqrt Real.pi freq l t).el -
          (geometry Real.cos Real.sin Real.sqrt Real.pi freq l t).er) / 320 * (freq : ℝ) ≥ 0 :=
        mul_nonneg (div_nonneg (by linarith [not_lt.mp hc]) (by norm_num)) (le_of_lt hfr)
      linarith
    exact ⟨h2, by rw [hbal]; exact (one_lt_div hel0).mpr h2⟩
  refine ⟨hpos, hneg, ?_⟩
  intro s hsd hsb
  constructor
  · intro h0 hne
    have hb : s.balance ≤ 1 := by
      rw [hsb]
      exact le_of_lt (hpos (by rw [← hsd]; omega)).2
    refine ⟨hb, fun i => ?_⟩
    unfold rsamp balance_step
    rw [if_pos hb]
  · intro hd
    have hb : ¬ s.balance ≤ 1 := by
      rw [hsb]
      exact not_le.mpr (hneg (by rw [← hsd]; exact hd)).2
    refine ⟨hb, fun i => ?_⟩
    unfold lsamp balance_step
    rw [if_neg hb]

/-- Witness of C11 at distance 10, angle 90 degrees, sample rate 44100, where the delay
is 27. -/
theorem geometry_sign_consistent_witness :
    ((0 : Int) < 44100 ∧
      (geometry Real.cos Real.sin Real.sqrt Real.pi 44100 10 90).er ≠ 0 ∧
      (geometry Real.cos Real.sin Real.sqrt Real.pi 44100 10 90).el ≠ 0 ∧
      0 < (geometry Real.cos Real.sin Real.sqrt Real.pi 44100 10 90).delay) ∧
    (geometry Real.cos Real.sin Real.sqrt Real.pi 44100 10 90).er <
      (geometry Real.cos Real.sin Real.sqrt Real.pi 44100 10 90).el ∧
    (geometry Real.cos Real.sin Real.sqrt Real.pi 44100 10 90).balance < 1 :=
  have her : (geometry Real.cos Real.sin Real.sqrt Real.pi 44100 10 90).er ≠ 0 := by
    rw [(geometry_right_angle 44100).2.2.1]; norm_num
  have hel : (geometry Real.cos Real.sin Real.sqrt Real.pi 44100 10 90).el ≠ 0 := by
    rw [(geometry_right_angle 44100).2.2.2]; norm_num
  have hd : 0 < (geometry Real.cos Real.sin Real.sqrt Real.pi 44100 10 90).delay := by
    rw [geometry_right_angle_delay]; decide
  ⟨⟨by decide, her, hel, hd⟩, (geometry_sign_consistent 10 90 44100 (by decide) her hel).1 hd⟩

/-- C12, evaluated at a failing input: with 8 bytes (two frames) remaining, 8 bytes requested
and delay 1, loop index 2 is reached and fewer than 4 source bytes remain at offset `4*2`
(none does), yet `8 > 8` is false, so the code reads the four bytes at addresses 8..11, all
outside the remaining source, and `merged` is 200 (what that memory holds), not 0; the value
is stored as the right sample of output frame 1.  The guard only gives silence when
`i*4 > audio_len`. -/
theorem merged_reads_past_end :
    ((0 : Int) ≤ 2 ∧ (2 : Int) < (effective_len (example_state 1 1 8) 8).tdiv 4 +
      |(example_state 1 1 8).delay| ∧
      (4 : Int) * 2 + 4 > (example_state 1 1 8).audio_len) ∧
    merged_reads (example_state 1 1 8) 2 = [8, 9, 10, 11] ∧
    (∀ a ∈ merged_reads (example_state 1 1 8) 2, ¬ in_source (example_state 1 1 8) a) ∧
    merged (example_state 1 1 8) 2 = 200 ∧
    merged (example_state 1 1 8) 2 ≠ 0 ∧
    (3, 200) ∈ callback_stores (example_state 1 1 8) 8 ∧
    (∀ (s : AudioState ℚ) (i : Int), i * 4 > s.audio_len →
      merged s i = 0 ∧ merged_reads s i = []) := by
  refine ⟨by decide, by decide, by decide, by decide, by decide, ?_, ?_⟩
  · rw [callback_stores_eq (example_state 1 1 8) 8 (by decide) (by decide) (by decide)]
    have h := right_mem_loop_stores_nonneg (example_state 1 1 8) 2 1 (by decide) (by decide)
      (by decide)
    rw [rsamp_balance_one _ rfl] at h
    exact h
  · intro s i hi
    unfold merged merged_reads
    rw [if_pos hi, if_pos hi]
    exact ⟨rfl, rfl⟩

/-- C13: for every pair of raw samples in the `int16_t` range, the merged value
`Lraw/2 + Rraw/2` (C division, truncating toward zero) is in the `int16_t` range, so its
conversion to `int16_t` changes nothing; in particular the variable `merged` of every loop
iteration of every state is in that range. -/
theorem merged_fits_int16 {α : Type} (Lraw Rraw : Int) (hL : int16_range Lraw)
    (hR : int16_range Rraw) (s : AudioState α) (i : Int) :
    int16_range (Lraw.tdiv 2 + Rraw.tdiv 2) ∧
    toI16 (Lraw.tdiv 2 + Rraw.tdiv 2) = Lraw.tdiv 2 + Rraw.tdiv 2 ∧
    int16_range (merged s i) := by
  have hsum : ∀ a b : Int, int16_range a → int16_range b →
      int16_range (a.tdiv 2 + b.tdiv 2) := by
    intro a b ha hb
    have h1 := tdiv_two_bounds a ha
    have h2 := tdiv_two_bounds b hb
    unfold int16_range
    omega
  refine ⟨hsum _ _ hL hR, toI16_of_range _ (hsum _ _ hL hR), ?_⟩
  unfold merged
  split_ifs
  · decide
  · exact hsum _ _ (toI16_range _) (toI16_range _)

/-- Witness of C13 at the extreme samples `-32768` and `-32768`, on the example buffer. -/
theorem merged_fits_int16_witness :
    (int16_range (-32768) ∧ int16_range (-32768)) ∧
    int16_range ((-32768 : Int).tdiv 2 + (-32768 : Int).tdiv 2) ∧
    int16_range (merged (example_state 1 1 20) 1) :=
  ⟨by decide,
    (merged_fits_int16 (-32768) (-32768) (by decide) (by decide) (example_state 1 1 20) 1).1,
    (merged_fits_int16 (-32768) (-32768) (by decide) (by decide)
      (example_state 1 1 20) 1).2.2⟩

/-- C14: in exact arithmetic (any ordered field, the rationals in particular), for every
merged value `m` and balance `b > 0`, the balance step gives `(lsamp, rsamp) = (m*b, m)` when
`b <= 1` and `(m, m/b)` when `b > 1`; one channel carries exactly `m`, the other carries `m`
scaled by `min(b, 1/b) <= 1`, neither channel exceeds `|m|` in magnitude, and the two
branches agree at `b = 1`. -/
theorem balance_step_never_amplifies {α : Type} [LinearOrderedField α] (m b : α)
    (hb : 0 < b) :
    (b ≤ 1 → balance_step b m = (m * b, m)) ∧
    (1 < b → balance_step b m = (m, m / b)) ∧
    ((balance_step b m).1 = m ∨ (balance_step b m).2 = m) ∧
    (b ≤ 1 → (balance_step b m).1 = m * min b (1 / b)) ∧
    (1 < b → (balance_step b m).2 = m * min b (1 / b)) ∧
    min b (1 / b) ≤ 1 ∧
    |(balance_step b m).1| ≤ |m| ∧
    |(balance_step b m).2| ≤ |m| ∧
    (m * 1, m) = (m, m / 1) := by
  have hmin : min b (1 / b) ≤ 1 := by
    by_cases h : b ≤ 1
    · exact le_trans (min_le_left _ _) h
    · have h1 : 1 < b := not_le.mp h
      exact le_trans (min_le_right _ _) (le_of_lt ((div_lt_one hb).mpr h1))
  by_cases h : b ≤ 1
  · have hstep : balance_step b m = (m * b, m) := by
      unfold balance_step; rw [if_pos h]
    have hminb : min b (1 / b) = b := by
      apply min_eq_left
      rw [le_div_iff₀ hb]
      nlinarith
    refine ⟨fun _ => hstep, fun h1 => absurd h (not_le.mpr h1), Or.inr (by rw [hstep]),
      fun _ => by rw [hstep, hminb], fun h1 => absurd h (not_le.mpr h1), hmin, ?_, ?_, ?_⟩
    · rw [hstep]
      show |m * b| ≤ |m|
      rw [abs_mul, abs_of_pos hb]
      exact mul_le_of_le_one_right (abs_nonneg m) h
    · rw [hstep]
    · simp
  · have h1 : 1 < b := not_le.mp h
    have hstep : balance_step b m = (m, m / b) := by
      unfold balance_step; rw [if_neg h]
    have hminb : min b (1 / b) = 1 / b := by
      apply min_eq_right
      rw [div_le_iff₀ hb]
      nlinarith
    refine ⟨fun h' => absurd h' h, fun _ => hstep, Or.inl (by rw [hstep]),
      fun h' => absurd h' h, fun _ => by rw [hstep, hminb]; ring, hmin, ?_, ?_, ?_⟩
    · rw [hstep]
    · rw [hstep]
      show |m / b| ≤ |m|
      rw [abs_div, abs_of_pos hb]
      exact div_le_self (abs_nonneg m) (le_of_lt h1)
    · simp

/-- Witness of C14 over the rationals: merged value 100, balance 1/2. -/
theorem balance_step_never_amplifies_witness :
    (0 : ℚ) < 1 / 2 ∧
    ((1 / 2 : ℚ) ≤ 1 → balance_step (1 / 2 : ℚ) 100 = (100 * (1 / 2), 100)) ∧
    |(balance_step (1 / 2 : ℚ) 100).1| ≤ |(100 : ℚ)| :=
  ⟨by norm_num, (balance_step_never_amplifies (100 : ℚ) (1 / 2) (by norm_num)).1,
    (balance_step_never_amplifies (100 : ℚ) (1 / 2) (by norm_num)).2.2.2.2.2.2.1⟩

/-- C15: for every call with remaining length `R > 0`, a requested length `len >= 0` (an
`int`) and any delay, every store into the output buffer targets a sample of an output frame
in `[0, samples)` with `samples = min(len, R) / 4`: the index is non-negative and the two
bytes stored lie strictly below byte offset `min(len, R) <= len`, although the loop runs
`samples + |delay|` iterations. -/
theorem stores_within_output {α : Type} [LinearOrderedField α] [FloorRing α]
    (s : AudioState α) (len : Int) (hR : 0 < s.audio_len) (hn : 0 ≤ len)
    (hlen : int_range len) :
    (∀ w ∈ callback_stores s len,
      0 ≤ w.1 ∧ 0 ≤ w.1 / 2 ∧ w.1 / 2 < min len s.audio_len / 4 ∧
      2 * w.1 + 1 < min len s.audio_len) ∧
    min len s.audio_len ≤ len ∧
    callback_stores s len =
      (List.range (min len s.audio_len / 4 + |s.delay|).toNat).flatMap
        (fun i => body_stores s (min len s.audio_len / 4) (i : Int)) := by
  rw [callback_stores_eq s len hR hn hlen]
  refine ⟨?_, min_le_left _ _, rfl⟩
  intro w hw
  have := loop_stores_index_range s _ w hw
  omega

/-- Witness of C15 on the example buffer: 20 bytes remaining, 16 requested, delay 3. -/
theorem stores_within_output_witness :
    (0 < (example_state 3 1 20).audio_len ∧ (0 : Int) ≤ 16 ∧ int_range 16) ∧
    (∀ w ∈ callback_stores (example_state 3 1 20) 16,
      0 ≤ w.1 ∧ 0 ≤ w.1 / 2 ∧ w.1 / 2 < min 16 (example_state 3 1 20).audio_len / 4 ∧
      2 * w.1 + 1 < min 16 (example_state 3 1 20).audio_len) :=
  ⟨by decide,
    (stores_within_output (example_state 3 1 20) 16 (by decide) (by decide) (by decide)).1⟩

/-- C16: with `delay` and `balance` unchanged, splitting a request does not change the
rendered stream: for byte lengths `a, b >= 0` that are multiples of 4 with
`a + b + 4*|delay| <= remaining`, the call with length `a` followed by the call with length
`b` fills two output buffers whose first `a` and first `b` bytes (`int16_t` indices below
`a/2` and `b/2`) are, concatenated, the first `a + b` bytes the single call with length
`a + b` produces, and both ways leave the same cursor and the same remaining length. -/
theorem split_request {α : Type} [LinearOrderedField α] [FloorRing α]
    (s : AudioState α) (st st1 st2 : Int → Int) (a b : Int)
    (ha : 0 ≤ a) (hb : 0 ≤ b) (ha4 : 4 ∣ a) (hb4 : 4 ∣ b)
    (hsum : a + b + 4 * |s.delay| ≤ s.audio_len) (hR32 : uint32_range s.audio_len)
    (hint : int_range (a + b)) :
    (∀ k : Int, 0 ≤ k → k < a / 2 →
      (audio_callback s st1 a).2 k = (audio_callback s st (a + b)).2 k) ∧
    (∀ k : Int, 0 ≤ k → k < b / 2 →
      (audio_callback (audio_callback s st1 a).1 st2 b).2 k =
        (audio_callback s st (a + b)).2 (a / 2 + k)) ∧
    (audio_callback (audio_callback s st1 a).1 st2 b).1.audio_pos =
      (audio_callback s st (a + b)).1.audio_pos ∧
    (audio_callback (audio_callback s st1 a).1 st2 b).1.audio_len =
      (audio_callback s st (a + b)).1.audio_len := by
  obtain ⟨ca, rfl⟩ := ha4
  obtain ⟨cb, rfl⟩ := hb4
  have hdn := abs_nonneg s.delay
  obtain ⟨hi1, hi2⟩ := hint
  have hi2 : 4 * ca + 4 * cb < 2 ^ 31 := hi2
  have hia : int_range (4 * ca) := ⟨by omega, by omega⟩
  have hib : int_range (4 * cb) := ⟨by omega, by omega⟩
  have hiab : int_range (4 * ca + 4 * cb) := ⟨by omega, by omega⟩
  by_cases hR : 0 < s.audio_len
  · -- the single call
    have hmin : min (4 * ca + 4 * cb) s.audio_len = 4 * ca + 4 * cb :=
      min_eq_left (by omega)
    obtain ⟨hp, hl⟩ := audio_callback_state s st (4 * ca + 4 * cb) hR hR32 (by omega) hiab
    rw [hmin] at hp hl
    have hout : (audio_callback s st (4 * ca + 4 * cb)).2 =
        (loop_stores s (ca + cb)).foldl store st := by
      rw [audio_callback_stream, callback_stores_eq s _ hR (by omega) hiab, hmin]
      congr 2
      omega
    -- the first call of the split
    have hmin1 : min (4 * ca) s.audio_len = 4 * ca := min_eq_left (by omega)
    obtain ⟨hp1, hl1⟩ := audio_callback_state s st1 (4 * ca) hR hR32 ha hia
    rw [hmin1] at hp1 hl1
    obtain ⟨hm1, hd1, hb1⟩ := audio_callback_params s st1 (4 * ca)
    have hout1 : (audio_callback s st1 (4 * ca)).2 =
        (loop_stores s ca).foldl store st1 := by
      rw [audio_callback_stream, callback_stores_eq s _ hR ha hia, hmin1]
      congr 2
      omega
    have h32' : uint32_range (audio_callback s st1 (4 * ca)).1.audio_len := by
      rw [hl1]; exact ⟨by omega, by have := hR32.2; omega⟩
    refine ⟨?_, ?_, ?_, ?_⟩
    · intro k hk0 hk
      rw [hout, hout1]
      have h := loop_output_advance s s st st1 (ca + cb) ca 0 k rfl rfl
        (fun i => by rw [zero_add]) le_rfl hk0 (by omega) (by omega)
      have e : 2 * 0 + k = k := by omega
      rw [e] at h
      exact h
    · intro k hk0 hk
      have hR1 : 0 < (audio_callback s st1 (4 * ca)).1.audio_len := by
        rw [hl1]; omega
      have hmin2 : min (4 * cb) (audio_callback s st1 (4 * ca)).1.audio_len = 4 * cb :=
        min_eq_left (by rw [hl1]; omega)
      have hout2 : (audio_callback (audio_callback s st1 (4 * ca)).1 st2 (4 * cb)).2 =
          (loop_stores (audio_callback s st1 (4 * ca)).1 cb).foldl store st2 := by
        rw [audio_callback_stream, callback_stores_eq _ _ hR1 hb hib, hmin2]
        congr 2
        omega
      rw [hout, hout2]
      have h := loop_output_advance s (audio_callback s st1 (4 * ca)).1 st st2 (ca + cb) cb
        ca k hd1 hb1 (merged_advance s _ ca hm1 hp1 hl1) (by omega) hk0 (by omega) (by omega)
      have e : 4 * ca / 2 + k = 2 * ca + k := by omega
      rw [e]
      exact h
    · by_cases hR1 : 0 < (audio_callback s st1 (4 * ca)).1.audio_len
      · obtain ⟨hp2, _⟩ := audio_callback_state (audio_callback s st1 (4 * ca)).1 st2
          (4 * cb) hR1 h32' hb hib
        rw [hp2, hp, hp1, min_eq_left (by rw [hl1]; omega)]
        ring
      · have h0 : (audio_callback s st1 (4 * ca)).1.audio_len = 0 := by
          have := h32'.1
          omega
        rw [audio_callback_of_empty _ st2 (4 * cb) h0, hp, hp1]
        rw [hl1] at h0
        omega
    · by_cases hR1 : 0 < (audio_callback s st1 (4 * ca)).1.audio_len
      · obtain ⟨_, hl2⟩ := audio_callback_state (audio_callback s st1 (4 * ca)).1 st2
          (4 * cb) hR1 h32' hb hib
        rw [hl2, hl, hl1, min_eq_left (by omega)]
        ring
      · have h0 : (audio_callback s st1 (4 * ca)).1.audio_len = 0 := by
          have := h32'.1
          omega
        rw [audio_callback_of_empty _ st2 (4 * cb) h0, hl, hl1]
        rw [hl1] at h0
        omega
  · have h0 : s.audio_len = 0 := by
      have := hR32.1
      omega
    have hca : ca = 0 := by omega
    have hcb : cb = 0 := by omega
    subst hca hcb
    rw [audio_callback_of_empty s st1 _ h0, audio_callback_of_empty s st2 _ h0,
      audio_callback_of_empty s st _ h0]
    refine ⟨?_, ?_, rfl, rfl⟩
    · intro k hk0 hk
      omega
    · intro k hk0 hk
      omega

/-- Witness of C16 on the example buffer: 20 bytes remaining, delay 1, lengths 8 and 8. -/
theorem split_request_witness :
    ((0 : Int) ≤ 8 ∧ (4 : Int) ∣ 8 ∧
      (8 : Int) + 8 + 4 * |(example_state 1 1 20).delay| ≤ (example_state 1 1 20).audio_len ∧
      uint32_range (example_state 1 1 20).audio_len ∧ int_range (8 + 8)) ∧
    (∀ k : Int, 0 ≤ k → k < 8 / 2 →
      (audio_callback (audio_callback (example_state 1 1 20) silence 8).1 silence 8).2 k =
        (audio_callback (example_state 1 1 20) silence (8 + 8)).2 (8 / 2 + k)) ∧
    (audio_callback (audio_callback (example_state 1 1 20) silence 8).1 silence 8).1.audio_len =
      (audio_callback (example_state 1 1 20) silence (8 + 8)).1.audio_len :=
  ⟨⟨by decide, ⟨2, rfl⟩, by decide, by decide, by decide⟩,
    (split_request (example_state 1 1 20) silence silence silence 8 8 (by decide) (by decide)
      ⟨2, rfl⟩ ⟨2, rfl⟩ (by decide) (by decide) (by decide)).2.1,
    (split_request (example_state 1 1 20) silence silence silence 8 8 (by decide) (by decide)
      ⟨2, rfl⟩ ⟨2, rfl⟩ (by decide) (by decide) (by decide)).2.2.2⟩

/-- C17: in exact real arithmetic, for every distance `l`, angle `t` and sample rate
`freq >= 0`, the two ear distances differ by at most the ear separation, `|el - er| <= 0.20`,
hence `|delay| <= 0.20 / 320 * freq = freq / 1600`; so for a callback state holding this
delay the loop bound `samples + |delay|` is at most `samples + freq / 1600`, whatever the
distance and the angle. -/
theorem geometry_delay_bounded (l t : ℝ) (freq : Int) (hfreq : 0 ≤ freq) :
    |(geometry Real.cos Real.sin Real.sqrt Real.pi freq l t).el -
      (geometry Real.cos Real.sin Real.sqrt Real.pi freq l t).er| ≤ 20 / 100 ∧
    ((|(geometry Real.cos Real.sin Real.sqrt Real.pi freq l t).delay| : Int) : ℝ) ≤
      20 / 100 / 320 * (freq : ℝ) ∧
    ((|(geometry Real.cos Real.sin Real.sqrt Real.pi freq l t).delay| : Int) : ℝ) ≤
      (freq : ℝ) / 1600 ∧
    |(geometry Real.cos Real.sin Real.sqrt Real.pi freq l t).delay| ≤ freq / 1600 ∧
    (∀ (s : AudioState ℝ) (samples : Int),
      s.delay = (geometry Real.cos Real.sin Real.sqrt Real.pi freq l t).delay →
      samples + |s.delay| ≤ samples + freq / 1600 ∧
      (loop_stores s samples = (List.range (samples + |s.delay|).toNat).flatMap
        (fun i => body_stores s samples (i : Int))) ∧
      (samples + |s.delay|).toNat ≤ (samples + freq / 1600).toNat) := by
  have hfr : (0 : ℝ) ≤ (freq : ℝ) := by exact_mod_cast hfreq
  have hdiff : |(geometry Real.cos Real.sin Real.sqrt Real.pi freq l t).el -
      (geometry Real.cos Real.sin Real.sqrt Real.pi freq l t).er| ≤ 20 / 100 :=
    ear_distance_diff _ _
  have hdelay : (geometry Real.cos Real.sin Real.sqrt Real.pi freq l t).delay =
      truncToInt (((geometry Real.cos Real.sin Real.sqrt Real.pi freq l t).el -
        (geometry Real.cos Real.sin Real.sqrt Real.pi freq l t).er) / 320 * (freq : ℝ)) := rfl
  have hreal : ((|(geometry Real.cos Real.sin Real.sqrt Real.pi freq l t).delay| : Int) : ℝ) ≤
      20 / 100 / 320 * (freq : ℝ) := by
    rw [hdelay]
    refine le_trans (abs_truncToInt_le _) ?_
    rw [abs_mul, abs_div, abs_of_nonneg hfr, abs_of_pos (by norm_num : (0 : ℝ) < 320)]
    exact mul_le_mul_of_nonneg_right (div_le_div_of_nonneg_right hdiff (by norm_num)) hfr
  have hreal' : ((|(geometry Real.cos Real.sin Real.sqrt Real.pi freq l t).delay| : Int) : ℝ) ≤
      (freq : ℝ) / 1600 := by
    have e : (20 : ℝ) / 100 / 320 * (freq : ℝ) = (freq : ℝ) / 1600 := by ring
    rw [← e]; exact hreal
  have hint : |(geometry Real.cos Real.sin Real.sqrt Real.pi freq l t).delay| ≤ freq / 1600 := by
    have h1 : ((|(geometry Real.cos Real.sin Real.sqrt Real.pi freq l t).delay| * 1600 : Int) : ℝ)
        ≤ (freq : ℝ) := by
      push_cast
      have := (le_div_iff₀ (by norm_num : (0 : ℝ) < 1600)).mp hreal'
      push_cast at this
      exact this
    have h2 : |(geometry Real.cos Real.sin Real.sqrt Real.pi freq l t).delay| * 1600 ≤ freq := by
      exact_mod_cast h1
    omega
  refine ⟨hdiff, hreal, hreal', hint, ?_⟩
  intro s samples hs
  rw [hs]
  refine ⟨by omega, ?_, by omega⟩
  unfold loop_stores
  rw [hs]

/-- Witness of C17 at distance 10, angle 90 degrees, sample rate 44100: the delay is 27 and
the bound `44100 / 1600` is 27. -/
theorem geometry_delay_bounded_witness :
    (0 : Int) ≤ 44100 ∧
    |(geometry Real.cos Real.sin Real.sqrt Real.pi 44100 10 90).el -
      (geometry Real.cos Real.sin Real.sqrt Real.pi 44100 10 90).er| ≤ 20 / 100 ∧
    |(geometry Real.cos Real.sin Real.sqrt Real.pi 44100 10 90).delay| ≤ 44100 / 1600 :=
  ⟨by decide, (geometry_delay_bounded 10 90 44100 (by decide)).1,
    (geometry_delay_bounded 10 90 44100 (by decide)).2.2.2.1⟩

end Binaural
